import Mathlib

/-!
Verification of the claw-kit search engine (kit/search/src) against its
natural-language specification.  The TypeScript sources are shallowly
embedded: pure functions become Lean functions over List/String/Rat, the
SQLite store becomes an explicit record of row lists, and the FTS5 engine,
the embedding provider and the filesystem are model parameters.  JavaScript
strings are modelled by Lean String (character based rather than UTF-16
code units; the difference is irrelevant to every property below), and
floating point scores by Rat.
-/

namespace ClawKit

/-- Model of the JavaScript String.prototype.trim function: drop whitespace
characters from both ends.  Defined on the character list so that proofs can
proceed by list induction. -/
def jsTrim (s : String) : String :=
  String.mk (((s.toList.dropWhile Char.isWhitespace).reverse.dropWhile Char.isWhitespace).reverse)

/-- Model of the JavaScript split on a single separator character, as in
content.split(backslash-n): empty input gives one empty piece, and a
trailing separator gives a trailing empty piece. -/
def splitCharAux (sep : Char) : List Char → List Char → List String
  | [], cur => [String.mk cur.reverse]
  | c :: rest, cur =>
    if c = sep then String.mk cur.reverse :: splitCharAux sep rest []
    else splitCharAux sep rest (c :: cur)

/-- Split a string at every occurrence of a separator character. -/
def splitChar (sep : Char) (s : String) : List String :=
  splitCharAux sep s.toList []

/-- Model of the JavaScript split on the regular expression of one or more
whitespace characters.  The accumulator is some token while a token is being
built and none while inside a whitespace run. -/
def jsSplitWsAux : List Char → Option (List Char) → List String
  | [], some cur => [String.mk cur.reverse]
  | [], none => [""]
  | c :: rest, some cur =>
    if c.isWhitespace then String.mk cur.reverse :: jsSplitWsAux rest none
    else jsSplitWsAux rest (some (c :: cur))
  | c :: rest, none =>
    if c.isWhitespace then jsSplitWsAux rest none
    else jsSplitWsAux rest (some [c])

/-- Split a string on whitespace runs, exactly as the JavaScript regular
expression split used by formatFtsQuery does. -/
def jsSplitWs (s : String) : List String :=
  jsSplitWsAux s.toList (some [])

/-! ## Chunker (kit/search/src/chunker.ts) -/

/-- Chunk record produced by chunkMarkdown, mirroring the exported Chunk
interface: trimmed text, 1-indexed inclusive line span, and a content hash.
The hash function itself (sha256 truncated to 16 hex characters) is kept
abstract as a parameter throughout this development. -/
structure Chunk where
  text : String
  startLine : Nat
  endLine : Nat
  hash : String
deriving Repr, DecidableEq

/-- Target chunk size constant from chunker.ts (approximately 200 tokens). -/
def TARGET_CHUNK_SIZE : Nat := 800

/-- Heading detection: the regular expression of one to six hash characters
followed by a whitespace character, anchored at the start of the line. -/
def isHeadingLine (line : String) : Bool :=
  let cs := line.toList
  let n := (cs.takeWhile (fun c => c = '#')).length
  decide (1 ≤ n ∧ n ≤ 6) &&
    (match cs.drop n with
      | c :: _ => c.isWhitespace
      | [] => false)

/-- Best split point from chunker.ts findSplitPoint: scan indices from
30 percent of the length upward, keeping the blank line whose index is
strictly closest to the 60 percent mark; none mirrors the -1 return.
The JavaScript source computes the bounds as Math.floor of binary floating
products with 0.3 and 0.6; for the list lengths arising here these agree
with the integer divisions below, and no theorem in this file depends on
which blank line is selected. -/
def findSplitPoint (lines : List String) : Option Nat :=
  let len := lines.length
  let target := len * 6 / 10
  let lo := len * 3 / 10
  (List.range' lo (len - lo)).foldl
    (fun best i =>
      if jsTrim (lines.getD i "") = "" then
        match best with
        | none => some i
        | some b => if Nat.dist i target < Nat.dist b target then some i else some b
      else best)
    none

/-- Build a chunk from accumulated lines, as chunker.ts buildChunk: join
with newlines, trim, drop the chunk when the trimmed text is empty, and
hash the trimmed text. -/
def buildChunk (hash : String → String) (lines : List String) (startLine endLine : Nat) :
    Option Chunk :=
  let text := jsTrim (String.intercalate "\n" lines)
  if text.length = 0 then none
  else some ⟨text, startLine, endLine, hash text⟩

/-- Weight of a line in the running chunk size: its length plus one for the
newline, as accumulated by chunkMarkdown. -/
def lineWeight (l : String) : Nat := l.length + 1

/-- Total size of a buffered line list, matching the incremental size
bookkeeping of chunkMarkdown after a split. -/
def weightList (ls : List String) : Nat := ls.foldl (fun a l => a + lineWeight l) 0

/-- Loop state of chunkMarkdown: current heading, accumulated lines, the
1-indexed start line of the pending chunk, the accumulated byte size, and
the chunks flushed so far. -/
structure ChunkState where
  heading : String
  buf : List String
  start : Nat
  size : Nat
  chunks : List Chunk
deriving Repr

/-- Initial state of the chunkMarkdown loop. -/
def initChunkState : ChunkState := ⟨"", [], 1, 0, []⟩

/-- One iteration of the chunkMarkdown loop on the line with 1-indexed
number lineNum: flush at a heading, push the line, then split when the
accumulated size reaches the target and a usable blank line exists. -/
def chunkStep (hash : String → String) (st : ChunkState) (lineNum : Nat) (line : String) :
    ChunkState :=
  let st :=
    if isHeadingLine line then
      if 0 < st.buf.length ∧ 0 < st.size then
        { heading := line, buf := [], start := lineNum, size := 0,
          chunks := st.chunks ++ (buildChunk hash st.buf st.start (lineNum - 1)).toList }
      else { st with heading := line }
    else st
  let st := { st with buf := st.buf ++ [line], size := st.size + lineWeight line }
  if TARGET_CHUNK_SIZE ≤ st.size then
    match findSplitPoint st.buf with
    | some k =>
      if 0 < k ∧ k < st.buf.length - 1 then
        let firstPart := st.buf.take (k + 1)
        let remainder := st.buf.drop (k + 1)
        let chunkEndLine := st.start + k
        let flushed := st.chunks ++ (buildChunk hash firstPart st.start chunkEndLine).toList
        let withCtx :=
          st.heading ≠ "" ∧ remainder ≠ [] ∧ isHeadingLine (remainder.headD "") = false
        let buf := if withCtx then st.heading :: remainder else remainder
        { heading := st.heading, buf := buf, start := chunkEndLine + 1,
          size := weightList buf, chunks := flushed }
      else st
    | none => st
  else st

/-- Run the chunkMarkdown loop over a list of lines and flush the final
pending chunk, whose end line is the total line count. -/
def chunkMarkdownLines (hash : String → String) (lines : List String) : List Chunk :=
  let st := lines.enum.foldl (fun st p => chunkStep hash st (p.1 + 1) p.2) initChunkState
  if 0 < st.buf.length then
    st.chunks ++ (buildChunk hash st.buf st.start lines.length).toList
  else st.chunks

/-- chunkMarkdown from chunker.ts: empty or whitespace-only content yields
no chunks, otherwise the line loop runs on the newline-split content.  The
filePath argument is unused, exactly as in the source. -/
def chunkMarkdown (hash : String → String) (content : String) (filePath : String) :
    List Chunk :=
  if (jsTrim content).length = 0 then []
  else chunkMarkdownLines hash (splitChar '\n' content)

/-! ## Storage model (kit/search/src/db.ts schema)

The SQLite store is modelled as explicit row lists.  The files table has
path as primary key; the chunks table has an AUTOINCREMENT surrogate id,
modelled by the nextId counter.  The FTS index is maintained inside the
same unit of work by triggers, so it carries no separate model state. -/

/-- Row of the files table. -/
structure FileRow where
  path : String
  source : String
  hash : String
  mtime : Nat
  size : Nat
  indexedAt : Nat
deriving Repr, DecidableEq

/-- Row of the chunks table. -/
structure ChunkRow where
  id : Nat
  path : String
  source : String
  startLine : Nat
  endLine : Nat
  text : String
  hash : String
  updatedAt : Nat
deriving Repr, DecidableEq

/-- The database: files rows, chunks rows, and the AUTOINCREMENT counter. -/
structure Db where
  files : List FileRow
  chunks : List ChunkRow
  nextId : Nat
deriving Repr, DecidableEq

/-- Primitive mutation statements issued by the indexer, in source order. -/
inductive DbOp where
  | delChunks (path : String)
  | delFiles (path : String)
  | insFile (row : FileRow)
  | insChunk (path source : String) (startLine endLine : Nat) (text hash : String)
      (updatedAt : Nat)
deriving Repr, DecidableEq

/-- Apply one primitive statement to the database. -/
def applyOp (db : Db) : DbOp → Db
  | .delChunks p => { db with chunks := db.chunks.filter (fun c => c.path ≠ p) }
  | .delFiles p => { db with files := db.files.filter (fun f => f.path ≠ p) }
  | .insFile row => { db with files := db.files ++ [row] }
  | .insChunk p s sl el t h u =>
      { db with chunks := db.chunks ++ [⟨db.nextId, p, s, sl, el, t, h, u⟩],
                nextId := db.nextId + 1 }

/-- The statement sequence of indexer.ts indexFile, in source order: delete
the old chunk rows, delete the old file row, insert the new file row, then
insert one chunk row per chunk of the freshly chunked content. -/
def indexFileOps (hash : String → String) (relPath source content fileHash : String)
    (mtime size now : Nat) : List DbOp :=
  [DbOp.delChunks relPath, DbOp.delFiles relPath,
   DbOp.insFile ⟨relPath, source, fileHash, mtime, size, now⟩] ++
  (chunkMarkdown hash content relPath).map
    (fun c => DbOp.insChunk relPath source c.startLine c.endLine c.text c.hash now)

/-- Transaction runner modelling better-sqlite3 semantics: when the wrapped
function completes, every statement is committed in order; when it throws
after any number of statements, the whole transaction is rolled back and
the database is observably unchanged. -/
def runTx (db : Db) (ops : List DbOp) (failAfter : Option Nat) : Db :=
  match failAfter with
  | none => ops.foldl applyOp db
  | some _ => db

/-- Committed run of indexFile from indexer.ts. -/
def indexFile (hash : String → String) (db : Db) (relPath source content fileHash : String)
    (mtime size now : Nat) : Db :=
  runTx db (indexFileOps hash relPath source content fileHash mtime size now) none

/-- removeFile from indexer.ts: delete the chunk rows then the file row for
a path, inside one transaction. -/
def removeFile (db : Db) (relPath : String) : Db :=
  { db with chunks := db.chunks.filter (fun c => c.path ≠ relPath),
            files := db.files.filter (fun f => f.path ≠ relPath) }

/-- Files rows stored for a given path. -/
def filesFor (db : Db) (p : String) : List FileRow :=
  db.files.filter (fun f => f.path = p)

/-- Chunks rows stored for a given path. -/
def chunksFor (db : Db) (p : String) : List ChunkRow :=
  db.chunks.filter (fun c => c.path = p)

/-- Chunk row assembled from a chunk with a given surrogate id. -/
def mkChunkRow (id : Nat) (relPath source : String) (c : Chunk) (now : Nat) : ChunkRow :=
  ⟨id, relPath, source, c.startLine, c.endLine, c.text, c.hash, now⟩

/-- Chunk rows for a chunk list with consecutive surrogate ids. -/
def mkChunkRows (baseId : Nat) (relPath source : String) (now : Nat) :
    List Chunk → List ChunkRow
  | [] => []
  | c :: cs => mkChunkRow baseId relPath source c now :: mkChunkRows (baseId + 1) relPath source now cs

/-! ## Lemmas about the storage primitives -/

theorem mkChunkRows_path (relPath source : String) (now : Nat) (cs : List Chunk) :
    ∀ baseId, ∀ r ∈ mkChunkRows baseId relPath source now cs, r.path = relPath := by
  induction cs with
  | nil => intro baseId r hr; simp [mkChunkRows] at hr
  | cons c cs ih =>
    intro baseId r hr
    simp only [mkChunkRows, List.mem_cons] at hr
    rcases hr with rfl | hr
    · rfl
    · exact ih _ r hr

theorem mkChunkRows_length (relPath source : String) (now : Nat) (cs : List Chunk) :
    ∀ baseId, (mkChunkRows baseId relPath source now cs).length = cs.length := by
  induction cs with
  | nil => intro baseId; rfl
  | cons c cs ih => intro baseId; simp [mkChunkRows, ih]

theorem foldl_insChunks (relPath source : String) (now : Nat) (cs : List Chunk) :
    ∀ db : Db,
      (cs.map (fun c =>
          DbOp.insChunk relPath source c.startLine c.endLine c.text c.hash now)).foldl applyOp db
      = { db with chunks := db.chunks ++ mkChunkRows db.nextId relPath source now cs,
                  nextId := db.nextId + cs.length } := by
  induction cs with
  | nil => intro db; simp [mkChunkRows]
  | cons c cs ih =>
    intro db
    simp only [List.map_cons, List.foldl_cons]
    rw [ih]
    simp [applyOp, mkChunkRows, mkChunkRow, List.append_assoc]
    omega

theorem filter_key_ne_then_eq {α : Type} (key : α → String) (l : List α) {p q : String}
    (h : q ≠ p) :
    (l.filter (fun a => key a ≠ p)).filter (fun a => key a = q)
      = l.filter (fun a => key a = q) := by
  rw [List.filter_filter]
  apply List.filter_congr
  intro a _
  by_cases hq : key a = q
  · simp [hq]
    exact h
  · simp [hq]

theorem filter_key_ne_then_same {α : Type} (key : α → String) (l : List α) (p : String) :
    (l.filter (fun a => key a ≠ p)).filter (fun a => key a = p) = [] := by
  rw [List.filter_filter]
  rw [List.filter_eq_nil_iff]
  intro a _
  by_cases hp : key a = p <;> simp [hp]

/-- Full characterisation of a committed indexFile run, used by several
claims below: the file row for the path is replaced, the chunk rows for the
path are exactly the freshly chunked content, and rows of other paths are
untouched. -/
theorem indexFile_characterisation (hash : String → String) (db : Db)
    (relPath source content fileHash : String) (mtime size now : Nat) :
    indexFile hash db relPath source content fileHash mtime size now
      = { files := db.files.filter (fun f => f.path ≠ relPath)
            ++ [⟨relPath, source, fileHash, mtime, size, now⟩],
          chunks := db.chunks.filter (fun c => c.path ≠ relPath)
            ++ mkChunkRows db.nextId relPath source now (chunkMarkdown hash content relPath),
          nextId := db.nextId + (chunkMarkdown hash content relPath).length } := by
  unfold indexFile runTx indexFileOps
  rw [List.foldl_append]
  rw [foldl_insChunks]
  rfl

/-- A committed indexFile run replaces the file row of its path. -/
theorem indexFile_filesFor_self (hash : String → String) (db : Db)
    (relPath source content fileHash : String) (mtime size now : Nat) :
    filesFor (indexFile hash db relPath source content fileHash mtime size now) relPath
      = [⟨relPath, source, fileHash, mtime, size, now⟩] := by
  rw [indexFile_characterisation]
  unfold filesFor
  rw [List.filter_append, filter_key_ne_then_same (fun f : FileRow => f.path)]
  simp

/-- A committed indexFile run replaces the chunk rows of its path by the
freshly chunked content with consecutive surrogate ids. -/
theorem indexFile_chunksFor_self (hash : String → String) (db : Db)
    (relPath source content fileHash : String) (mtime size now : Nat) :
    chunksFor (indexFile hash db relPath source content fileHash mtime size now) relPath
      = mkChunkRows db.nextId relPath source now (chunkMarkdown hash content relPath) := by
  rw [indexFile_characterisation]
  unfold chunksFor
  rw [List.filter_append, filter_key_ne_then_same (fun c : ChunkRow => c.path)]
  rw [List.nil_append]
  apply List.filter_eq_self.mpr
  intro r hr
  have := mkChunkRows_path relPath source now (chunkMarkdown hash content relPath) _ r hr
  simp [this]

/-- A committed indexFile run leaves the rows of every other path as they
were. -/
theorem indexFile_frame (hash : String → String) (db : Db)
    (relPath source content fileHash : String) (mtime size now : Nat)
    {q : String} (hq : q ≠ relPath) :
    filesFor (indexFile hash db relPath source content fileHash mtime size now) q
        = filesFor db q ∧
    chunksFor (indexFile hash db relPath source content fileHash mtime size now) q
        = chunksFor db q := by
  rw [indexFile_characterisation]
  constructor
  · unfold filesFor
    rw [List.filter_append, filter_key_ne_then_eq (fun f : FileRow => f.path) _ hq]
    have : ([(⟨relPath, source, fileHash, mtime, size, now⟩ : FileRow)].filter
        (fun f => f.path = q)) = [] := by
      simp [Ne.symm hq]
    rw [this, List.append_nil]
  · unfold chunksFor
    rw [List.filter_append, filter_key_ne_then_eq (fun c : ChunkRow => c.path) _ hq]
    have : ((mkChunkRows db.nextId relPath source now
        (chunkMarkdown hash content relPath)).filter (fun c => c.path = q)) = [] := by
      apply List.filter_eq_nil_iff.mpr
      intro r hr
      have := mkChunkRows_path relPath source now (chunkMarkdown hash content relPath) _ r hr
      simp [this, Ne.symm hq]
    rw [this, List.append_nil]

/-! ## Claim C1 -/

/-- Failing input for claim C1: a 902-character heading line, then short
lines separated by blank lines, then a second heading and a tail line.
Each size-triggered split re-adds the heading as context, and the split
index of the next split counts that context line, shifting the recorded
line spans upward step by step. -/
def c1BugContent : String :=
  String.intercalate "\n"
    ["# " ++ String.mk (List.replicate 900 'A'), "x", "", "y", "", "z", "", "w", "# B", "tail"]

set_option maxRecDepth 10000 in
/-- C1: refuted on the code.  On the failing input, chunkMarkdown returns
chunks with line spans (1,3), (4,6), (7,9), (10,8), (9,10): the spans
(7,9) and (9,10) overlap at line 9 and the start lines are not in order,
so the chunk list is neither ordered by start line nor pairwise
non-overlapping as the claim requires. -/
theorem chunkMarkdown_C1_spanOverlap :
    ((chunkMarkdown (fun _ => "") c1BugContent "memory.md").map
        fun c => (c.startLine, c.endLine)) = [(1, 3), (4, 6), (7, 9), (10, 8), (9, 10)] ∧
    ¬ List.Pairwise (fun a b => a.startLine ≤ b.startLine ∧ a.endLine < b.startLine)
        (chunkMarkdown (fun _ => "") c1BugContent "memory.md") := by
  decide

/-! ## Claim C2 -/

/-- C2: re-indexing one file is atomic.  A transaction that fails after any
number of statements leaves the database unchanged, and a committed run
replaces the file row for the path, replaces its chunk rows by exactly the
newly computed chunk set, and leaves every other path untouched, so the
only observable states are the prior state and the fully replaced state. -/
theorem indexFile_C2_atomic (hash : String → String) (db : Db)
    (relPath source content fileHash : String) (mtime size now : Nat) :
    (∀ k : Nat,
        runTx db (indexFileOps hash relPath source content fileHash mtime size now)
          (some k) = db) ∧
    filesFor (indexFile hash db relPath source content fileHash mtime size now) relPath
      = [⟨relPath, source, fileHash, mtime, size, now⟩] ∧
    chunksFor (indexFile hash db relPath source content fileHash mtime size now) relPath
      = mkChunkRows db.nextId relPath source now (chunkMarkdown hash content relPath) ∧
    ∀ q, q ≠ relPath →
      filesFor (indexFile hash db relPath source content fileHash mtime size now) q
          = filesFor db q ∧
      chunksFor (indexFile hash db relPath source content fileHash mtime size now) q
          = chunksFor db q := by
  exact ⟨fun k => rfl,
    indexFile_filesFor_self hash db relPath source content fileHash mtime size now,
    indexFile_chunksFor_self hash db relPath source content fileHash mtime size now,
    fun q hq => indexFile_frame hash db relPath source content fileHash mtime size now hq⟩

/-- Concrete database for the C2 witness. -/
def c2WitnessDb : Db :=
  ⟨[⟨"b.md", "memory", "x", 0, 0, 0⟩], [⟨0, "b.md", "memory", 1, 1, "t", "h", 0⟩], 5⟩

/-- Witness for C2: applying the theorem at concrete inputs, discharging
the hypothesis on the untouched path. -/
theorem indexFile_C2_atomic_witness :
    filesFor (indexFile (fun s => s) c2WitnessDb "a.md" "memory" "hello" "h1" 1 5 10) "b.md"
        = filesFor c2WitnessDb "b.md" ∧
    chunksFor (indexFile (fun s => s) c2WitnessDb "a.md" "memory" "hello" "h1" 1 5 10) "b.md"
        = chunksFor c2WitnessDb "b.md" :=
  (indexFile_C2_atomic (fun s => s) c2WitnessDb "a.md" "memory" "hello" "h1" 1 5 10).2.2.2
    "b.md" (by decide)

/-! ## Indexer full scan (kit/search/src/indexer.ts indexMemory)

The filesystem is modelled as the list of files the markdown glob
enumerates, in glob order.  A file whose read throws has content none;
binary detection and the gitkeep check mirror the source. -/

/-- One enumerated file of the source tree: relative path, content when
readable (none models a read failure), and stat data. -/
structure FsFile where
  path : String
  content : Option String
  mtimeMs : Nat
  size : Nat
deriving Repr, DecidableEq

/-- Binary heuristic from indexer.ts isBinary: a null byte within the
first 8 kilobytes of the content. -/
def isBinary (content : String) : Bool :=
  (content.toList.take 8192).contains (Char.ofNat 0)

/-- Accumulator of the indexMemory scan loop: the evolving database, the
indexed and skipped counters, and the set of observed paths in insertion
order. -/
structure ScanAcc where
  db : Db
  indexed : Nat
  skipped : Nat
  current : List String
deriving Repr

/-- Deduplication keeping first occurrences, as a JavaScript Set built by
insertion does. -/
def dedupKeepFirst {α : Type} [BEq α] (l : List α) : List α :=
  l.foldl (fun acc x => if acc.contains x then acc else acc ++ [x]) []

/-- One iteration of the indexMemory scan loop: skip gitkeep names before
recording the path, record the path, then skip unreadable and binary
files, skip on a hash match, and otherwise re-index the file. -/
def scanStep (chunkHash fileHash : String → String) (now : Nat) (acc : ScanAcc)
    (f : FsFile) : ScanAcc :=
  if f.path.endsWith ".gitkeep" then acc
  else
    let acc1 := { acc with current := acc.current ++ [f.path] }
    match f.content with
    | none => acc1
    | some content =>
      if isBinary content then acc1
      else
        let h := fileHash content
        match acc1.db.files.find? (fun fr => fr.path = f.path) with
        | some fr =>
          if fr.hash = h then { acc1 with skipped := acc1.skipped + 1 }
          else
            { acc1 with
                db := indexFile chunkHash acc1.db f.path "memory" content h f.mtimeMs f.size now,
                indexed := acc1.indexed + 1 }
        | none =>
            { acc1 with
                db := indexFile chunkHash acc1.db f.path "memory" content h f.mtimeMs f.size now,
                indexed := acc1.indexed + 1 }

/-- Result record of a full scan. -/
structure ScanResult where
  indexed : Nat
  skipped : Nat
  removed : Nat
  db : Db
deriving Repr, DecidableEq

/-- One iteration of the removal loop after the scan: an existing path not
observed in this pass is removed. -/
def removeStep (current : List String) (st : Db × Nat) (ep : String) : Db × Nat :=
  if current.contains ep then st else (removeFile st.1 ep, st.2 + 1)

/-- The existingPaths snapshot taken before the scan: the distinct paths
of the stored memory file rows, as a JavaScript Set in insertion order. -/
def existingOf (db : Db) : List String :=
  dedupKeepFirst ((db.files.filter (fun fr => fr.source = "memory")).map (fun fr => fr.path))

/-- The scan loop of indexMemory over the enumerated files. -/
def scanOf (chunkHash fileHash : String → String) (db : Db) (tree : List FsFile)
    (now : Nat) : ScanAcc :=
  tree.foldl (scanStep chunkHash fileHash now) ⟨db, 0, 0, []⟩

/-- indexMemory from indexer.ts: snapshot the existing memory paths, scan
every enumerated file, then remove the files that no longer exist.  The
optional embedding pass is outside this model (it only adds vector rows). -/
def removalOf (chunkHash fileHash : String → String) (db : Db) (tree : List FsFile)
    (now : Nat) : Db × Nat :=
  (existingOf db).foldl (removeStep (scanOf chunkHash fileHash db tree now).current)
    ((scanOf chunkHash fileHash db tree now).db, 0)

def indexMemory (chunkHash fileHash : String → String) (db : Db) (tree : List FsFile)
    (now : Nat) : ScanResult :=
  ⟨(scanOf chunkHash fileHash db tree now).indexed,
   (scanOf chunkHash fileHash db tree now).skipped,
   (removalOf chunkHash fileHash db tree now).2,
   (removalOf chunkHash fileHash db tree now).1⟩

/-- A file takes part in indexing when it is not a gitkeep marker, is
readable, and does not look binary. -/
def fsProcessable (f : FsFile) : Bool :=
  !f.path.endsWith ".gitkeep" &&
  (match f.content with
   | some c => !isBinary c
   | none => false)

/-- The scan skips a file exactly when it is processable and the stored
file record for its path carries the freshly computed content hash. -/
def fsHashMatches (fileHash : String → String) (db : Db) (f : FsFile) : Bool :=
  fsProcessable f &&
  (match f.content, db.files.find? (fun fr => fr.path = f.path) with
   | some c, some fr => fr.hash = fileHash c
   | _, _ => false)

/-- Paths recorded as observed by a scan over the given files. -/
def currentOf (files : List FsFile) : List String :=
  (files.filter (fun f => !f.path.endsWith ".gitkeep")).map (fun f => f.path)

/-! ## Lemmas about the scan loop -/

theorem find?_eq_head?_filter {α : Type} (p : α → Bool) (l : List α) :
    l.find? p = (l.filter p).head? := by
  induction l with
  | nil => rfl
  | cons a l ih =>
    cases h : p a
    · rw [List.find?_cons_of_neg, List.filter_cons_of_neg]
      · exact ih
      · simp [h]
      · simp [h]
    · rw [List.find?_cons_of_pos, List.filter_cons_of_pos]
      · rfl
      · simp [h]
      · simp [h]

/-- The hash-match decision of the scan depends on the database only
through the file rows stored for the path of the file in question. -/
theorem fsHashMatches_congr (fileHash : String → String) (db1 db2 : Db) (f : FsFile)
    (h : filesFor db1 f.path = filesFor db2 f.path) :
    fsHashMatches fileHash db1 f = fsHashMatches fileHash db2 f := by
  unfold fsHashMatches
  have hfind : db1.files.find? (fun fr => fr.path = f.path)
      = db2.files.find? (fun fr => fr.path = f.path) := by
    rw [find?_eq_head?_filter, find?_eq_head?_filter]
    unfold filesFor at h
    rw [h]
  rw [hfind]

theorem scanStep_db_frame (chunkHash fileHash : String → String) (now : Nat) (acc : ScanAcc)
    (f : FsFile) (p : String) (hp : p ≠ f.path) :
    filesFor (scanStep chunkHash fileHash now acc f).db p = filesFor acc.db p ∧
    chunksFor (scanStep chunkHash fileHash now acc f).db p = chunksFor acc.db p := by
  unfold scanStep
  by_cases hgk : f.path.endsWith ".gitkeep" = true
  · simp [hgk]
  · cases hfc : f.content with
    | none => simp [hgk, hfc]
    | some c =>
      by_cases hb : isBinary c = true
      · simp [hgk, hfc, hb]
      · cases hfind : acc.db.files.find? (fun fr => fr.path = f.path) with
        | none =>
          have hfr := indexFile_frame chunkHash acc.db f.path "memory" c (fileHash c)
            f.mtimeMs f.size now hp
          simpa [hgk, hfc, hb, hfind] using hfr
        | some fr =>
          by_cases hh : fr.hash = fileHash c
          · simp [hgk, hfc, hb, hfind, hh]
          · have hfr := indexFile_frame chunkHash acc.db f.path "memory" c (fileHash c)
              f.mtimeMs f.size now hp
            simpa [hgk, hfc, hb, hfind, hh] using hfr

theorem scanStep_db_eq_of_skip (chunkHash fileHash : String → String) (now : Nat)
    (acc : ScanAcc) (f : FsFile)
    (h : fsHashMatches fileHash acc.db f = true ∨ fsProcessable f = false) :
    (scanStep chunkHash fileHash now acc f).db = acc.db := by
  unfold scanStep
  unfold fsHashMatches fsProcessable at h
  by_cases hgk : f.path.endsWith ".gitkeep" = true
  · simp [hgk]
  · cases hfc : f.content with
    | none => simp [hgk, hfc]
    | some c =>
      by_cases hb : isBinary c = true
      · simp [hgk, hfc, hb]
      · cases hfind : acc.db.files.find? (fun fr => fr.path = f.path) with
        | none => simp [hgk, hfc, hb, hfind] at h
        | some fr =>
          by_cases hh : fr.hash = fileHash c
          · simp [hgk, hfc, hb, hfind, hh]
          · simp [hgk, hfc, hb, hfind, hh] at h

theorem scanStep_skipped (chunkHash fileHash : String → String) (now : Nat) (acc : ScanAcc)
    (f : FsFile) :
    (scanStep chunkHash fileHash now acc f).skipped
      = acc.skipped + (if fsHashMatches fileHash acc.db f then 1 else 0) := by
  unfold scanStep fsHashMatches fsProcessable
  by_cases hgk : f.path.endsWith ".gitkeep" = true
  · simp [hgk]
  · cases hfc : f.content with
    | none => simp [hgk, hfc]
    | some c =>
      by_cases hb : isBinary c = true
      · simp [hgk, hfc, hb]
      · cases hfind : acc.db.files.find? (fun fr => fr.path = f.path) with
        | none => simp [hgk, hfc, hb, hfind]
        | some fr =>
          by_cases hh : fr.hash = fileHash c
          · simp [hgk, hfc, hb, hfind, hh]
          · simp [hgk, hfc, hb, hfind, hh]

theorem scanStep_indexed (chunkHash fileHash : String → String) (now : Nat) (acc : ScanAcc)
    (f : FsFile) :
    (scanStep chunkHash fileHash now acc f).indexed
      = acc.indexed
        + (if fsProcessable f && !fsHashMatches fileHash acc.db f then 1 else 0) := by
  unfold scanStep fsHashMatches fsProcessable
  by_cases hgk : f.path.endsWith ".gitkeep" = true
  · simp [hgk]
  · cases hfc : f.content with
    | none => simp [hgk, hfc]
    | some c =>
      by_cases hb : isBinary c = true
      · simp [hgk, hfc, hb]
      · cases hfind : acc.db.files.find? (fun fr => fr.path = f.path) with
        | none => simp [hgk, hfc, hb, hfind]
        | some fr =>
          by_cases hh : fr.hash = fileHash c
          · simp [hgk, hfc, hb, hfind, hh]
          · simp [hgk, hfc, hb, hfind, hh]

theorem scanStep_current (chunkHash fileHash : String → String) (now : Nat) (acc : ScanAcc)
    (f : FsFile) :
    (scanStep chunkHash fileHash now acc f).current
      = acc.current ++ (if f.path.endsWith ".gitkeep" then [] else [f.path]) := by
  unfold scanStep
  by_cases hgk : f.path.endsWith ".gitkeep" = true
  · simp [hgk]
  · cases hfc : f.content with
    | none => simp [hgk, hfc]
    | some c =>
      by_cases hb : isBinary c = true
      · simp [hgk, hfc, hb]
      · cases hfind : acc.db.files.find? (fun fr => fr.path = f.path) with
        | none => simp [hgk, hfc, hb, hfind]
        | some fr =>
          by_cases hh : fr.hash = fileHash c
          · simp [hgk, hfc, hb, hfind, hh]
          · simp [hgk, hfc, hb, hfind, hh]

theorem scanFold_db_frame (chunkHash fileHash : String → String) (now : Nat)
    (files : List FsFile) (p : String) (hp : ∀ f ∈ files, p ≠ f.path) :
    ∀ acc : ScanAcc,
      filesFor ((files.foldl (scanStep chunkHash fileHash now) acc).db) p
          = filesFor acc.db p ∧
      chunksFor ((files.foldl (scanStep chunkHash fileHash now) acc).db) p
          = chunksFor acc.db p := by
  induction files with
  | nil => intro acc; exact ⟨rfl, rfl⟩
  | cons g rest ih =>
    intro acc
    simp only [List.foldl_cons]
    have hstep := scanStep_db_frame chunkHash fileHash now acc g p (hp g (by simp))
    have hrest := ih (fun f hf => hp f (by simp [hf])) (scanStep chunkHash fileHash now acc g)
    exact ⟨hrest.1.trans hstep.1, hrest.2.trans hstep.2⟩

theorem scanFold_current (chunkHash fileHash : String → String) (now : Nat)
    (files : List FsFile) :
    ∀ acc : ScanAcc,
      (files.foldl (scanStep chunkHash fileHash now) acc).current
        = acc.current ++ currentOf files := by
  induction files with
  | nil => intro acc; simp [currentOf]
  | cons g rest ih =>
    intro acc
    simp only [List.foldl_cons]
    rw [ih, scanStep_current]
    unfold currentOf
    by_cases hgk : g.path.endsWith ".gitkeep" = true <;>
      simp [hgk, List.filter_cons, List.append_assoc]

theorem scanFold_skipped (chunkHash fileHash : String → String) (now : Nat)
    (files : List FsFile) (hnd : (files.map (fun f => f.path)).Nodup) :
    ∀ acc : ScanAcc,
      (files.foldl (scanStep chunkHash fileHash now) acc).skipped
        = acc.skipped + (files.filter (fsHashMatches fileHash acc.db)).length := by
  induction files with
  | nil => intro acc; simp
  | cons g rest ih =>
    intro acc
    rw [List.map_cons, List.nodup_cons] at hnd
    simp only [List.foldl_cons]
    rw [ih hnd.2]
    have hpt : ∀ f ∈ rest,
        fsHashMatches fileHash (scanStep chunkHash fileHash now acc g).db f
          = fsHashMatches fileHash acc.db f := by
      intro f hf
      have hne : f.path ≠ g.path := by
        intro hcontr
        exact hnd.1 (hcontr ▸ List.mem_map_of_mem (fun f => f.path) hf)
      exact fsHashMatches_congr fileHash _ _ f
        (scanStep_db_frame chunkHash fileHash now acc g f.path hne).1
    rw [List.filter_congr hpt, scanStep_skipped, List.filter_cons]
    by_cases hm : fsHashMatches fileHash acc.db g = true <;> simp [hm] <;> omega

theorem scanFold_indexed (chunkHash fileHash : String → String) (now : Nat)
    (files : List FsFile) (hnd : (files.map (fun f => f.path)).Nodup) :
    ∀ acc : ScanAcc,
      (files.foldl (scanStep chunkHash fileHash now) acc).indexed
        = acc.indexed
          + (files.filter
              (fun f => fsProcessable f && !fsHashMatches fileHash acc.db f)).length := by
  induction files with
  | nil => intro acc; simp
  | cons g rest ih =>
    intro acc
    rw [List.map_cons, List.nodup_cons] at hnd
    simp only [List.foldl_cons]
    rw [ih hnd.2]
    have hpt : ∀ f ∈ rest,
        (fsProcessable f && !fsHashMatches fileHash (scanStep chunkHash fileHash now acc g).db f)
          = (fsProcessable f && !fsHashMatches fileHash acc.db f) := by
      intro f hf
      have hne : f.path ≠ g.path := by
        intro hcontr
        exact hnd.1 (hcontr ▸ List.mem_map_of_mem (fun f => f.path) hf)
      rw [fsHashMatches_congr fileHash _ _ f
        (scanStep_db_frame chunkHash fileHash now acc g f.path hne).1]
    rw [List.filter_congr hpt, scanStep_indexed, List.filter_cons]
    by_cases hm : (fsProcessable g && !fsHashMatches fileHash acc.db g) = true <;>
      simp [hm] <;> omega

theorem scanFold_db_eq_of_all_match (chunkHash fileHash : String → String) (now : Nat)
    (files : List FsFile) :
    ∀ acc : ScanAcc,
      (∀ f ∈ files, fsProcessable f = true → fsHashMatches fileHash acc.db f = true) →
      (files.foldl (scanStep chunkHash fileHash now) acc).db = acc.db := by
  induction files with
  | nil => intro acc _; rfl
  | cons g rest ih =>
    intro acc hall
    simp only [List.foldl_cons]
    have hdb : (scanStep chunkHash fileHash now acc g).db = acc.db := by
      apply scanStep_db_eq_of_skip
      by_cases hpg : fsProcessable g = true
      · exact Or.inl (hall g (by simp) hpg)
      · exact Or.inr (by simpa using hpg)
    rw [ih (scanStep chunkHash fileHash now acc g) (fun f hf hpf => by
      rw [hdb]; exact hall f (by simp [hf]) hpf)]
    exact hdb

theorem fsProcessable_of (f : FsFile) (c : String) (hc : f.content = some c)
    (hgk : f.path.endsWith ".gitkeep" = false) (hbin : isBinary c = false) :
    fsProcessable f = true := by
  unfold fsProcessable
  simp [hgk, hc, hbin]

theorem fsHashMatches_false_elim (fileHash : String → String) (db : Db) (f : FsFile)
    (c : String) (hc : f.content = some c) (hgk : f.path.endsWith ".gitkeep" = false)
    (hbin : isBinary c = false) (hm : fsHashMatches fileHash db f = false) :
    ∀ fr, db.files.find? (fun x => x.path = f.path) = some fr → fr.hash ≠ fileHash c := by
  intro fr hfind heq
  unfold fsHashMatches at hm
  rw [fsProcessable_of f c hc hgk hbin] at hm
  simp [hc, hfind, heq] at hm

theorem fsHashMatches_true_elim (fileHash : String → String) (db : Db) (f : FsFile)
    (hm : fsHashMatches fileHash db f = true) :
    fsProcessable f = true ∧
    ∃ c fr, f.content = some c ∧ db.files.find? (fun x => x.path = f.path) = some fr ∧
      fr.hash = fileHash c := by
  unfold fsHashMatches at hm
  rw [Bool.and_eq_true] at hm
  refine ⟨hm.1, ?_⟩
  rcases hfc : f.content with _ | c
  · rw [hfc] at hm; exact absurd hm.2 (by simp)
  · rcases hfind : db.files.find? (fun x => x.path = f.path) with _ | fr
    · rw [hfc, hfind] at hm; exact absurd hm.2 (by simp)
    · refine ⟨c, fr, rfl, hfind, ?_⟩
      rw [hfc, hfind] at hm
      simpa using hm.2

theorem scanStep_db_eq_of_index (chunkHash fileHash : String → String) (now : Nat)
    (acc : ScanAcc) (f : FsFile) (c : String) (hc : f.content = some c)
    (hgk : f.path.endsWith ".gitkeep" = false) (hbin : isBinary c = false)
    (hmis : ∀ fr, acc.db.files.find? (fun x => x.path = f.path) = some fr →
      fr.hash ≠ fileHash c) :
    (scanStep chunkHash fileHash now acc f).db
      = indexFile chunkHash acc.db f.path "memory" c (fileHash c) f.mtimeMs f.size now := by
  unfold scanStep
  cases hfind : acc.db.files.find? (fun fr => fr.path = f.path) with
  | none => simp [hgk, hc, hbin, hfind]
  | some fr => simp [hgk, hc, hbin, hfind, hmis fr hfind]

/-- When the scan reaches a file that it skips (hash match against the
rows it sees, which with distinct tree paths are the original rows) or
ignores (unreadable, binary), the rows for that path survive the whole
scan unchanged. -/
theorem scanFold_skip_rows (chunkHash fileHash : String → String) (now : Nat)
    (files : List FsFile) (f : FsFile) :
    ∀ acc : ScanAcc, (files.map (fun f => f.path)).Nodup → f ∈ files →
      (fsHashMatches fileHash acc.db f = true ∨ fsProcessable f = false) →
      filesFor ((files.foldl (scanStep chunkHash fileHash now) acc).db) f.path
          = filesFor acc.db f.path ∧
      chunksFor ((files.foldl (scanStep chunkHash fileHash now) acc).db) f.path
          = chunksFor acc.db f.path := by
  induction files with
  | nil => intro acc _ hf; cases hf
  | cons g rest ih =>
    intro acc hnd hf hcond
    rw [List.map_cons, List.nodup_cons] at hnd
    simp only [List.foldl_cons]
    rcases List.mem_cons.mp hf with rfl | hf'
    · have hdb : (scanStep chunkHash fileHash now acc f).db = acc.db :=
        scanStep_db_eq_of_skip chunkHash fileHash now acc f hcond
      have hout : ∀ h ∈ rest, f.path ≠ h.path := by
        intro h hh hcontr
        exact hnd.1 (hcontr ▸ List.mem_map_of_mem (fun f => f.path) hh)
      have := scanFold_db_frame chunkHash fileHash now rest f.path hout
        (scanStep chunkHash fileHash now acc f)
      rw [hdb] at this
      exact this
    · have hne : f.path ≠ g.path := by
        intro hcontr
        exact hnd.1 (hcontr ▸ List.mem_map_of_mem (fun f => f.path) hf')
      have hframe := scanStep_db_frame chunkHash fileHash now acc g f.path hne
      have hcond1 : fsHashMatches fileHash (scanStep chunkHash fileHash now acc g).db f = true
          ∨ fsProcessable f = false := by
        rcases hcond with hm | hnp
        · exact Or.inl ((fsHashMatches_congr fileHash _ _ f hframe.1).trans hm)
        · exact Or.inr hnp
      have := ih (scanStep chunkHash fileHash now acc g) hnd.2 hf' hcond1
      exact ⟨this.1.trans hframe.1, this.2.trans hframe.2⟩

/-- When the scan reaches a processable file whose stored hash does not
match, the file row and chunk rows for that path afterwards are exactly
the freshly indexed ones. -/
theorem scanFold_index_rows (chunkHash fileHash : String → String) (now : Nat)
    (files : List FsFile) (f : FsFile) (c : String) (hc : f.content = some c)
    (hgk : f.path.endsWith ".gitkeep" = false) (hbin : isBinary c = false) :
    ∀ acc : ScanAcc, (files.map (fun f => f.path)).Nodup → f ∈ files →
      fsHashMatches fileHash acc.db f = false →
      ∃ base,
        filesFor ((files.foldl (scanStep chunkHash fileHash now) acc).db) f.path
            = [⟨f.path, "memory", fileHash c, f.mtimeMs, f.size, now⟩] ∧
        chunksFor ((files.foldl (scanStep chunkHash fileHash now) acc).db) f.path
            = mkChunkRows base f.path "memory" now (chunkMarkdown chunkHash c f.path) := by
  induction files with
  | nil => intro acc _ hf; cases hf
  | cons g rest ih =>
    intro acc hnd hf hmis
    rw [List.map_cons, List.nodup_cons] at hnd
    simp only [List.foldl_cons]
    rcases List.mem_cons.mp hf with rfl | hf'
    · have hdb : (scanStep chunkHash fileHash now acc f).db
          = indexFile chunkHash acc.db f.path "memory" c (fileHash c) f.mtimeMs f.size now :=
        scanStep_db_eq_of_index chunkHash fileHash now acc f c hc hgk hbin
          (fsHashMatches_false_elim fileHash acc.db f c hc hgk hbin hmis)
      have hout : ∀ h ∈ rest, f.path ≠ h.path := by
        intro h hh hcontr
        exact hnd.1 (hcontr ▸ List.mem_map_of_mem (fun f => f.path) hh)
      have hframe := scanFold_db_frame chunkHash fileHash now rest f.path hout
        (scanStep chunkHash fileHash now acc f)
      refine ⟨acc.db.nextId, ?_, ?_⟩
      · rw [hframe.1, hdb]
        exact indexFile_filesFor_self chunkHash acc.db f.path "memory" c (fileHash c)
          f.mtimeMs f.size now
      · rw [hframe.2, hdb]
        exact indexFile_chunksFor_self chunkHash acc.db f.path "memory" c (fileHash c)
          f.mtimeMs f.size now
    · have hne : f.path ≠ g.path := by
        intro hcontr
        exact hnd.1 (hcontr ▸ List.mem_map_of_mem (fun f => f.path) hf')
      have hframe := scanStep_db_frame chunkHash fileHash now acc g f.path hne
      have hmis1 : fsHashMatches fileHash (scanStep chunkHash fileHash now acc g).db f
          = false := (fsHashMatches_congr fileHash _ _ f hframe.1).trans hmis
      rcases ih (scanStep chunkHash fileHash now acc g) hnd.2 hf' hmis1 with ⟨base, h1, h2⟩
      exact ⟨base, h1, h2⟩

theorem removeFile_frame (db : Db) (p : String) {q : String} (hq : q ≠ p) :
    filesFor (removeFile db p) q = filesFor db q ∧
    chunksFor (removeFile db p) q = chunksFor db q := by
  unfold removeFile filesFor chunksFor
  exact ⟨filter_key_ne_then_eq (fun f : FileRow => f.path) _ hq,
    filter_key_ne_then_eq (fun c : ChunkRow => c.path) _ hq⟩

theorem removeFile_self (db : Db) (p : String) :
    filesFor (removeFile db p) p = [] ∧ chunksFor (removeFile db p) p = [] := by
  unfold removeFile filesFor chunksFor
  exact ⟨filter_key_ne_then_same (fun f : FileRow => f.path) _ p,
    filter_key_ne_then_same (fun c : ChunkRow => c.path) _ p⟩

theorem removeFold_removed (current : List String) (eps : List String) :
    ∀ st : Db × Nat,
      (eps.foldl (removeStep current) st).2
        = st.2 + (eps.filter (fun ep => !current.contains ep)).length := by
  induction eps with
  | nil => intro st; simp
  | cons ep rest ih =>
    intro st
    simp only [List.foldl_cons]
    rw [ih, List.filter_cons]
    unfold removeStep
    by_cases hc : ep ∈ current <;> simp [hc] <;> omega

theorem removeFold_rows_in (current : List String) (eps : List String) (p : String)
    (hp : current.contains p = true) :
    ∀ st : Db × Nat,
      filesFor ((eps.foldl (removeStep current) st).1) p = filesFor st.1 p ∧
      chunksFor ((eps.foldl (removeStep current) st).1) p = chunksFor st.1 p := by
  induction eps with
  | nil => intro st; exact ⟨rfl, rfl⟩
  | cons ep rest ih =>
    intro st
    simp only [List.foldl_cons]
    have hpm : p ∈ current := List.elem_iff.mp hp
    have hstep : filesFor (removeStep current st ep).1 p = filesFor st.1 p ∧
        chunksFor (removeStep current st ep).1 p = chunksFor st.1 p := by
      unfold removeStep
      by_cases hc : ep ∈ current
      · simp [hc]
      · have hne : p ≠ ep := by
          intro hcontr
          rw [hcontr] at hpm
          exact hc hpm
        simpa [hc] using removeFile_frame st.1 ep hne
    have := ih (removeStep current st ep)
    exact ⟨this.1.trans hstep.1, this.2.trans hstep.2⟩

theorem removeFold_keeps_empty (current : List String) (eps : List String) (p : String) :
    ∀ st : Db × Nat, filesFor st.1 p = [] → chunksFor st.1 p = [] →
      filesFor ((eps.foldl (removeStep current) st).1) p = [] ∧
      chunksFor ((eps.foldl (removeStep current) st).1) p = [] := by
  induction eps with
  | nil => intro st h1 h2; exact ⟨h1, h2⟩
  | cons ep rest ih =>
    intro st h1 h2
    simp only [List.foldl_cons]
    have hstep : filesFor (removeStep current st ep).1 p = [] ∧
        chunksFor (removeStep current st ep).1 p = [] := by
      unfold removeStep
      by_cases hc : ep ∈ current
      · simp [hc, h1, h2]
      · by_cases hpe : p = ep
        · subst hpe
          simpa [hc] using removeFile_self st.1 p
        · have := removeFile_frame st.1 ep hpe
          simp [hc, this.1, this.2, h1, h2]
    exact ih (removeStep current st ep) hstep.1 hstep.2

theorem removeFold_rows_out (current : List String) (eps : List String) (p : String)
    (hp : current.contains p = false) :
    ∀ st : Db × Nat, p ∈ eps →
      filesFor ((eps.foldl (removeStep current) st).1) p = [] ∧
      chunksFor ((eps.foldl (removeStep current) st).1) p = [] := by
  induction eps with
  | nil => intro st hmem; cases hmem
  | cons ep rest ih =>
    intro st hmem
    simp only [List.foldl_cons]
    rcases List.mem_cons.mp hmem with rfl | hmem'
    · have hpm : p ∉ current := by
        intro hcontr
        have h2 : current.contains p = true := List.elem_iff.mpr hcontr
        rw [hp] at h2
        exact Bool.noConfusion h2
      have hstep : filesFor (removeStep current st p).1 p = [] ∧
          chunksFor (removeStep current st p).1 p = [] := by
        unfold removeStep
        simpa [hpm] using removeFile_self st.1 p
      exact removeFold_keeps_empty current rest p _ hstep.1 hstep.2
    · exact ih (removeStep current st ep) hmem'

theorem removeFold_db_eq_of_all_in (current : List String) (eps : List String)
    (hall : ∀ ep ∈ eps, current.contains ep = true) :
    ∀ st : Db × Nat, eps.foldl (removeStep current) st = st := by
  induction eps with
  | nil => intro st; rfl
  | cons ep rest ih =>
    intro st
    simp only [List.foldl_cons]
    have : removeStep current st ep = st := by
      unfold removeStep
      have hm : ep ∈ current := List.elem_iff.mp (hall ep (by simp))
      simp [hm]
    rw [this]
    exact ih (fun e he => hall e (by simp [he])) st

theorem removeFold_files_subset (current : List String) (eps : List String) :
    ∀ st : Db × Nat, ∀ fr, fr ∈ (eps.foldl (removeStep current) st).1.files →
      fr ∈ st.1.files := by
  induction eps with
  | nil => intro st fr h; exact h
  | cons ep rest ih =>
    intro st fr h
    simp only [List.foldl_cons] at h
    have h2 := ih (removeStep current st ep) fr h
    unfold removeStep at h2
    by_cases hc : current.contains ep = true
    · rw [if_pos hc] at h2
      exact h2
    · rw [if_neg hc] at h2
      unfold removeFile at h2
      have h3 : fr ∈ st.1.files.filter (fun f => f.path ≠ ep) := h2
      exact List.mem_of_mem_filter h3

theorem mem_dedupKeepFirst {α : Type} [BEq α] [LawfulBEq α] (l : List α) (x : α) :
    x ∈ dedupKeepFirst l ↔ x ∈ l := by
  unfold dedupKeepFirst
  suffices h : ∀ acc : List α,
      x ∈ l.foldl (fun acc y => if acc.contains y then acc else acc ++ [y]) acc
        ↔ x ∈ acc ∨ x ∈ l by
    simpa using h []
  induction l with
  | nil => intro acc; simp
  | cons y ys ih =>
    intro acc
    simp only [List.foldl_cons]
    by_cases hc : acc.contains y = true
    · rw [if_pos hc, ih]
      have hy : y ∈ acc := List.elem_iff.mp hc
      constructor
      · rintro (h | h)
        · exact Or.inl h
        · exact Or.inr (by simp [h])
      · rintro (h | h)
        · exact Or.inl h
        · rcases List.mem_cons.mp h with rfl | h'
          · exact Or.inl hy
          · exact Or.inr h'
    · rw [if_neg hc, ih]
      simp only [List.mem_append, List.mem_singleton, List.mem_cons]
      tauto

theorem mem_currentOf (files : List FsFile) (f : FsFile) (hf : f ∈ files)
    (hgk : f.path.endsWith ".gitkeep" = false) : f.path ∈ currentOf files := by
  unfold currentOf
  exact List.mem_map_of_mem _ (List.mem_filter.mpr ⟨hf, by simp [hgk]⟩)

theorem scanStep_db_frame' (chunkHash fileHash : String → String) (now : Nat) (acc : ScanAcc)
    (f : FsFile) (p : String) (hp : p ≠ f.path ∨ f.path.endsWith ".gitkeep" = true) :
    filesFor (scanStep chunkHash fileHash now acc f).db p = filesFor acc.db p ∧
    chunksFor (scanStep chunkHash fileHash now acc f).db p = chunksFor acc.db p := by
  rcases hp with hp | hgk
  · exact scanStep_db_frame chunkHash fileHash now acc f p hp
  · unfold scanStep
    simp [hgk]

theorem scanFold_db_frame' (chunkHash fileHash : String → String) (now : Nat)
    (files : List FsFile) (p : String)
    (hp : ∀ f ∈ files, p ≠ f.path ∨ f.path.endsWith ".gitkeep" = true) :
    ∀ acc : ScanAcc,
      filesFor ((files.foldl (scanStep chunkHash fileHash now) acc).db) p
          = filesFor acc.db p ∧
      chunksFor ((files.foldl (scanStep chunkHash fileHash now) acc).db) p
          = chunksFor acc.db p := by
  induction files with
  | nil => intro acc; exact ⟨rfl, rfl⟩
  | cons g rest ih =>
    intro acc
    simp only [List.foldl_cons]
    have hstep := scanStep_db_frame' chunkHash fileHash now acc g p (hp g (by simp))
    have hrest := ih (fun f hf => hp f (by simp [hf])) (scanStep chunkHash fileHash now acc g)
    exact ⟨hrest.1.trans hstep.1, hrest.2.trans hstep.2⟩

theorem fsHashMatches_intro (fileHash : String → String) (db : Db) (f : FsFile) (c : String)
    (fr : FileRow) (hproc : fsProcessable f = true) (hc : f.content = some c)
    (hfind : db.files.find? (fun x => x.path = f.path) = some fr)
    (hh : fr.hash = fileHash c) :
    fsHashMatches fileHash db f = true := by
  unfold fsHashMatches
  simp [hproc, hc, hfind, hh]

theorem fsHashMatches_false_of_not_processable (fileHash : String → String) (db : Db)
    (f : FsFile) (hp : fsProcessable f = false) : fsHashMatches fileHash db f = false := by
  unfold fsHashMatches
  simp [hp]

theorem fsProcessable_elim (f : FsFile) (hproc : fsProcessable f = true) :
    f.path.endsWith ".gitkeep" = false ∧ ∃ c, f.content = some c ∧ isBinary c = false := by
  unfold fsProcessable at hproc
  rw [Bool.and_eq_true] at hproc
  refine ⟨by simpa using hproc.1, ?_⟩
  rcases hfc : f.content with _ | c
  · rw [hfc] at hproc
    exact absurd hproc.2 (by simp)
  · rw [hfc] at hproc
    exact ⟨c, rfl, by simpa using hproc.2⟩

theorem scanOf_current (chunkHash fileHash : String → String) (db : Db) (tree : List FsFile)
    (now : Nat) : (scanOf chunkHash fileHash db tree now).current = currentOf tree := by
  unfold scanOf
  rw [scanFold_current]
  rfl

theorem scanOf_contains_of_mem (chunkHash fileHash : String → String) (db : Db)
    (tree : List FsFile) (now : Nat) (f : FsFile) (hf : f ∈ tree)
    (hgk : f.path.endsWith ".gitkeep" = false) :
    (scanOf chunkHash fileHash db tree now).current.contains f.path = true := by
  apply List.elem_iff.mpr
  rw [scanOf_current]
  exact mem_currentOf tree f hf hgk

/-- Rows of a path that the scan skips or ignores survive a whole
indexMemory run unchanged, provided the path is recorded as observed. -/
theorem indexMemory_rows_skip (chunkHash fileHash : String → String) (db : Db)
    (tree : List FsFile) (now : Nat) (hnd : (tree.map (fun f => f.path)).Nodup)
    (f : FsFile) (hf : f ∈ tree) (hgk : f.path.endsWith ".gitkeep" = false)
    (hcond : fsHashMatches fileHash db f = true ∨ fsProcessable f = false) :
    filesFor (indexMemory chunkHash fileHash db tree now).db f.path = filesFor db f.path ∧
    chunksFor (indexMemory chunkHash fileHash db tree now).db f.path
        = chunksFor db f.path := by
  have hscan := scanFold_skip_rows chunkHash fileHash now tree f ⟨db, 0, 0, []⟩ hnd hf hcond
  have hcur := scanOf_contains_of_mem chunkHash fileHash db tree now f hf hgk
  have hrem := removeFold_rows_in (scanOf chunkHash fileHash db tree now).current
    (existingOf db) f.path hcur ((scanOf chunkHash fileHash db tree now).db, 0)
  exact ⟨hrem.1.trans hscan.1, hrem.2.trans hscan.2⟩

/-- Rows of a path that the scan re-indexes are, after a whole indexMemory
run, exactly the freshly indexed ones. -/
theorem indexMemory_rows_index (chunkHash fileHash : String → String) (db : Db)
    (tree : List FsFile) (now : Nat) (hnd : (tree.map (fun f => f.path)).Nodup)
    (f : FsFile) (hf : f ∈ tree) (c : String) (hc : f.content = some c)
    (hgk : f.path.endsWith ".gitkeep" = false) (hbin : isBinary c = false)
    (hmis : fsHashMatches fileHash db f = false) :
    ∃ base,
      filesFor (indexMemory chunkHash fileHash db tree now).db f.path
          = [⟨f.path, "memory", fileHash c, f.mtimeMs, f.size, now⟩] ∧
      chunksFor (indexMemory chunkHash fileHash db tree now).db f.path
          = mkChunkRows base f.path "memory" now (chunkMarkdown chunkHash c f.path) := by
  rcases scanFold_index_rows chunkHash fileHash now tree f c hc hgk hbin
      ⟨db, 0, 0, []⟩ hnd hf hmis with ⟨base, h1, h2⟩
  have hcur := scanOf_contains_of_mem chunkHash fileHash db tree now f hf hgk
  have hrem := removeFold_rows_in (scanOf chunkHash fileHash db tree now).current
    (existingOf db) f.path hcur ((scanOf chunkHash fileHash db tree now).db, 0)
  exact ⟨base, hrem.1.trans h1, hrem.2.trans h2⟩

/-- After an indexMemory run, every processable file of the tree has a
stored file record whose hash matches its content hash. -/
theorem indexMemory_matches_after (chunkHash fileHash : String → String) (db : Db)
    (tree : List FsFile) (now : Nat) (hnd : (tree.map (fun f => f.path)).Nodup)
    (f : FsFile) (hf : f ∈ tree) (hproc : fsProcessable f = true) :
    fsHashMatches fileHash (indexMemory chunkHash fileHash db tree now).db f = true := by
  rcases fsProcessable_elim f hproc with ⟨hgk, c, hc, hbin⟩
  by_cases hm : fsHashMatches fileHash db f = true
  · have hrows := indexMemory_rows_skip chunkHash fileHash db tree now hnd f hf hgk
      (Or.inl hm)
    rw [fsHashMatches_congr fileHash _ db f hrows.1]
    exact hm
  · rcases indexMemory_rows_index chunkHash fileHash db tree now hnd f hf c hc hgk hbin
      (by simpa using hm) with ⟨base, h1, h2⟩
    have hfind : (indexMemory chunkHash fileHash db tree now).db.files.find?
        (fun x => x.path = f.path)
        = some ⟨f.path, "memory", fileHash c, f.mtimeMs, f.size, now⟩ := by
      rw [find?_eq_head?_filter]
      unfold filesFor at h1
      rw [h1]
      rfl
    exact fsHashMatches_intro fileHash _ f c _ hproc hc hfind rfl

/-- After an indexMemory run, every stored memory file row belongs to a
path that the scan observed. -/
theorem indexMemory_memoryRow_in_current (chunkHash fileHash : String → String) (db : Db)
    (tree : List FsFile) (now : Nat) :
    ∀ fr ∈ (indexMemory chunkHash fileHash db tree now).db.files, fr.source = "memory" →
      fr.path ∈ currentOf tree := by
  intro fr hfr hsrc
  by_contra hnc
  have hcf : (scanOf chunkHash fileHash db tree now).current.contains fr.path = false := by
    rw [scanOf_current]
    cases hco : (currentOf tree).contains fr.path
    · rfl
    · exact absurd (List.elem_iff.mp hco) hnc
  by_cases hex : fr.path ∈ existingOf db
  · have := removeFold_rows_out (scanOf chunkHash fileHash db tree now).current
      (existingOf db) fr.path hcf ((scanOf chunkHash fileHash db tree now).db, 0) hex
    have hmem : fr ∈ filesFor (indexMemory chunkHash fileHash db tree now).db fr.path :=
      List.mem_filter.mpr ⟨hfr, by simp⟩
    rw [show filesFor (indexMemory chunkHash fileHash db tree now).db fr.path
        = filesFor (removalOf chunkHash fileHash db tree now).1 fr.path from rfl] at hmem
    unfold removalOf at hmem
    rw [this.1] at hmem
    cases hmem
  · have hsub := removeFold_files_subset (scanOf chunkHash fileHash db tree now).current
      (existingOf db) ((scanOf chunkHash fileHash db tree now).db, 0) fr hfr
    have hframe : ∀ g ∈ tree, fr.path ≠ g.path ∨ g.path.endsWith ".gitkeep" = true := by
      intro g hg
      cases hgk : g.path.endsWith ".gitkeep"
      · left
        intro hcontr
        exact hnc (hcontr ▸ mem_currentOf tree g hg hgk)
      · right
        rfl
    have hpre := scanFold_db_frame' chunkHash fileHash now tree fr.path hframe ⟨db, 0, 0, []⟩
    have hmem2 : fr ∈ filesFor (scanOf chunkHash fileHash db tree now).db fr.path :=
      List.mem_filter.mpr ⟨hsub, by simp⟩
    have hmem3 : fr ∈ filesFor db fr.path := by
      rw [show filesFor (scanOf chunkHash fileHash db tree now).db fr.path
          = filesFor (tree.foldl (scanStep chunkHash fileHash now) ⟨db, 0, 0, []⟩).db fr.path
          from rfl, hpre.1] at hmem2
      exact hmem2
    apply hex
    unfold existingOf
    apply (mem_dedupKeepFirst _ _).mpr
    exact List.mem_map_of_mem _
      (List.mem_filter.mpr ⟨List.mem_of_mem_filter hmem3, by simp [hsrc]⟩)

/-- A second indexMemory run over an unchanged tree indexes nothing,
removes nothing, skips every processable file, and leaves the store
exactly as the first run left it. -/
theorem indexMemory_second_run (chunkHash fileHash : String → String) (db : Db)
    (tree : List FsFile) (now now2 : Nat) (hnd : (tree.map (fun f => f.path)).Nodup) :
    indexMemory chunkHash fileHash (indexMemory chunkHash fileHash db tree now).db tree now2
      = ⟨0, (tree.filter fsProcessable).length, 0,
          (indexMemory chunkHash fileHash db tree now).db⟩ := by
  set r1 : Db := (indexMemory chunkHash fileHash db tree now).db with hr1
  have hall : ∀ f ∈ tree, fsProcessable f = true →
      fsHashMatches fileHash r1 f = true :=
    fun f hf hp => indexMemory_matches_after chunkHash fileHash db tree now hnd f hf hp
  have hscan_db : (scanOf chunkHash fileHash r1 tree now2).db = r1 := by
    unfold scanOf
    exact scanFold_db_eq_of_all_match chunkHash fileHash now2 tree _ hall
  have hall_in : ∀ ep ∈ existingOf r1,
      (scanOf chunkHash fileHash r1 tree now2).current.contains ep = true := by
    intro ep hep
    rw [scanOf_current]
    unfold existingOf at hep
    rcases List.mem_map.mp ((mem_dedupKeepFirst _ _).mp hep) with ⟨fr, hfr2, rfl⟩
    rcases List.mem_filter.mp hfr2 with ⟨hfr, hsrc⟩
    exact List.elem_iff.mpr
      (indexMemory_memoryRow_in_current chunkHash fileHash db tree now fr hfr
        (by simpa using hsrc))
  have hrem := removeFold_db_eq_of_all_in
    (scanOf chunkHash fileHash r1 tree now2).current (existingOf r1) hall_in
    ((scanOf chunkHash fileHash r1 tree now2).db, 0)
  show indexMemory chunkHash fileHash r1 tree now2 = _
  unfold indexMemory removalOf
  rw [hrem]
  simp only [ScanResult.mk.injEq]
  refine ⟨?_, ?_, trivial, by rw [hscan_db]⟩
  · unfold scanOf
    rw [scanFold_indexed chunkHash fileHash now2 tree hnd]
    have hz : (tree.filter (fun f => fsProcessable f && !fsHashMatches fileHash r1 f))
        = [] := by
      apply List.filter_eq_nil_iff.mpr
      intro f hf
      by_cases hp : fsProcessable f = true
      · simp [hp, hall f hf hp]
      · simp [Bool.eq_false_iff.mpr hp]
    show 0 + (tree.filter (fun f => fsProcessable f && !fsHashMatches fileHash r1 f)).length
        = 0
    rw [hz]
    rfl
  · unfold scanOf
    rw [scanFold_skipped chunkHash fileHash now2 tree hnd]
    have hs : (tree.filter (fsHashMatches fileHash r1)) = tree.filter fsProcessable := by
      apply List.filter_congr
      intro f hf
      by_cases hp : fsProcessable f = true
      · rw [hp, hall f hf hp]
      · rw [fsHashMatches_false_of_not_processable fileHash _ f (Bool.eq_false_iff.mpr hp),
          Bool.eq_false_iff.mpr hp]
    show 0 + (tree.filter (fsHashMatches fileHash r1)).length
        = (tree.filter fsProcessable).length
    rw [hs]
    exact Nat.zero_add _

/-! ## Claim C3 -/

/-- C3: content-hash equality with the stored file record is necessary and
sufficient for a scan to skip a file: skipped counts exactly the
processable hash-matching files, indexed counts exactly the processable
non-matching ones, a hash-matching file keeps its rows byte for byte, a
non-matching processable file is freshly re-chunked, and a second run on
the unchanged tree returns zero indexed, zero removed, skipped equal to the
processable file count, and an unchanged store. -/
theorem indexMemory_C3_hashSkip (chunkHash fileHash : String → String) (db : Db)
    (tree : List FsFile) (now now2 : Nat)
    (hnd : (tree.map (fun f => f.path)).Nodup) :
    (indexMemory chunkHash fileHash db tree now).skipped
        = (tree.filter (fsHashMatches fileHash db)).length ∧
    (indexMemory chunkHash fileHash db tree now).indexed
        = (tree.filter (fun f => fsProcessable f && !fsHashMatches fileHash db f)).length ∧
    (∀ f ∈ tree, fsHashMatches fileHash db f = true →
        filesFor (indexMemory chunkHash fileHash db tree now).db f.path
            = filesFor db f.path ∧
        chunksFor (indexMemory chunkHash fileHash db tree now).db f.path
            = chunksFor db f.path) ∧
    (∀ f ∈ tree, ∀ c, f.content = some c → fsProcessable f = true →
        fsHashMatches fileHash db f = false →
        filesFor (indexMemory chunkHash fileHash db tree now).db f.path
            = [⟨f.path, "memory", fileHash c, f.mtimeMs, f.size, now⟩] ∧
        ∃ base, chunksFor (indexMemory chunkHash fileHash db tree now).db f.path
            = mkChunkRows base f.path "memory" now (chunkMarkdown chunkHash c f.path)) ∧
    indexMemory chunkHash fileHash (indexMemory chunkHash fileHash db tree now).db tree now2
        = ⟨0, (tree.filter fsProcessable).length, 0,
            (indexMemory chunkHash fileHash db tree now).db⟩ := by
  refine ⟨?_, ?_, ?_, ?_, indexMemory_second_run chunkHash fileHash db tree now now2 hnd⟩
  · show (scanOf chunkHash fileHash db tree now).skipped = _
    unfold scanOf
    rw [scanFold_skipped chunkHash fileHash now tree hnd]
    exact Nat.zero_add _
  · show (scanOf chunkHash fileHash db tree now).indexed = _
    unfold scanOf
    rw [scanFold_indexed chunkHash fileHash now tree hnd]
    exact Nat.zero_add _
  · intro f hf hm
    have hproc := (fsHashMatches_true_elim fileHash db f hm).1
    have hgk := (fsProcessable_elim f hproc).1
    exact indexMemory_rows_skip chunkHash fileHash db tree now hnd f hf hgk (Or.inl hm)
  · intro f hf c hc hproc hm
    rcases fsProcessable_elim f hproc with ⟨hgk, c2, hc2, hbin2⟩
    have hcc : c2 = c := by
      rw [hc] at hc2
      exact (Option.some.injEq _ _ ▸ hc2).symm
    subst hcc
    rcases indexMemory_rows_index chunkHash fileHash db tree now hnd f hf c2 hc hgk hbin2 hm
      with ⟨base, h1, h2⟩
    exact ⟨h1, base, h2⟩

/-- Concrete tree for the C3 witness. -/
def c3Tree : List FsFile := [⟨"a.md", some "hello world", 3, 11⟩]

/-- Witness for C3: the second-run conjunct at a concrete one-file tree,
with the distinct-paths hypothesis discharged by computation. -/
theorem indexMemory_C3_hashSkip_witness :
    indexMemory (fun s => s) (fun s => s)
        (indexMemory (fun s => s) (fun s => s) ⟨[], [], 0⟩ c3Tree 7).db c3Tree 8
      = ⟨0, (c3Tree.filter fsProcessable).length, 0,
          (indexMemory (fun s => s) (fun s => s) ⟨[], [], 0⟩ c3Tree 7).db⟩ :=
  (indexMemory_C3_hashSkip (fun s => s) (fun s => s) ⟨[], [], 0⟩ c3Tree 7 8
    (by decide)).2.2.2.2

/-! ## Claim C9 -/

/-- C9: a file that is enumerated but skipped because it is binary or
unreadable is still recorded as observed: its stored rows survive the scan
untouched, its path is in the observed set, and removed counts only the
existing paths outside the observed set, so the stale rows are retained. -/
theorem indexMemory_C9_staleRetained (chunkHash fileHash : String → String) (db : Db)
    (tree : List FsFile) (now : Nat) (hnd : (tree.map (fun f => f.path)).Nodup)
    (f : FsFile) (hf : f ∈ tree) (hgk : f.path.endsWith ".gitkeep" = false)
    (hbad : f.content = none ∨ ∃ c, f.content = some c ∧ isBinary c = true) :
    filesFor (indexMemory chunkHash fileHash db tree now).db f.path = filesFor db f.path ∧
    chunksFor (indexMemory chunkHash fileHash db tree now).db f.path
        = chunksFor db f.path ∧
    f.path ∈ currentOf tree ∧
    (indexMemory chunkHash fileHash db tree now).removed
        = ((existingOf db).filter
            (fun ep => !(currentOf tree).contains ep)).length := by
  have hnp : fsProcessable f = false := by
    unfold fsProcessable
    rcases hbad with hn | ⟨c, hc, hb⟩
    · simp [hgk, hn]
    · simp [hgk, hc, hb]
  have hrows := indexMemory_rows_skip chunkHash fileHash db tree now hnd f hf hgk
    (Or.inr hnp)
  refine ⟨hrows.1, hrows.2, mem_currentOf tree f hf hgk, ?_⟩
  show (removalOf chunkHash fileHash db tree now).2 = _
  unfold removalOf
  rw [removeFold_removed]
  rw [scanOf_current]
  exact Nat.zero_add _

/-- Concrete stale database and tree for the C9 witness: the stored rows
of a path whose file has become binary survive a full scan. -/
def c9Db : Db := ⟨[⟨"b.md", "memory", "oldhash", 0, 2, 0⟩], [⟨0, "b.md", "memory", 1, 1, "old", "h", 0⟩], 1⟩

/-- Concrete tree for the C9 witness: the file now contains a null byte. -/
def c9Tree : List FsFile := [⟨"b.md", some (String.mk [Char.ofNat 0, 'x']), 5, 2⟩]

/-- Witness for C9 at a concrete binary-turned file. -/
theorem indexMemory_C9_staleRetained_witness :
    filesFor (indexMemory (fun s => s) (fun s => s) c9Db c9Tree 9).db "b.md"
        = filesFor c9Db "b.md" ∧
    chunksFor (indexMemory (fun s => s) (fun s => s) c9Db c9Tree 9).db "b.md"
        = chunksFor c9Db "b.md" ∧
    "b.md" ∈ currentOf c9Tree ∧
    (indexMemory (fun s => s) (fun s => s) c9Db c9Tree 9).removed
        = ((existingOf c9Db).filter (fun ep => !(currentOf c9Tree).contains ep)).length :=
  indexMemory_C9_staleRetained (fun s => s) (fun s => s) c9Db c9Tree 9 (by decide)
    ⟨"b.md", some (String.mk [Char.ofNat 0, 'x']), 5, 2⟩ (by decide) (by decide)
    (Or.inr ⟨String.mk [Char.ofNat 0, 'x'], rfl, by decide⟩)

/-! ## Retrieval engine (kit/search/src/search.ts)

The FTS5 engine is a model parameter: a function from the generated query
string to either a syntax error or the full match list as pairs of chunk
id and score (the negated rank), in the order produced by ORDER BY rank.
The SQL LIMIT becomes a take, and the join with the chunks table becomes a
lookup by id.  Scores are rationals in place of SQLite floats. -/

/-- Search result row, as the SearchResult interface of types.ts. -/
structure SearchResult where
  path : String
  snippet : String
  startLine : Nat
  endLine : Nat
  score : ℚ
  source : String
deriving Repr, DecidableEq

/-- Options of search, with absent fields resolved by the defaults of the
source (10 results, minimum score 0, source all). -/
structure SearchOpts where
  maxResults : Option Nat
  minScore : Option ℚ
  source : Option String
deriving Repr, DecidableEq

/-- The source restriction of the SQL: no restriction for all, otherwise
an equality filter on the source column. -/
def sourceFilter (src : String) (c : ChunkRow) : Bool :=
  src = "all" || c.source = src

/-- Character stripping of formatFtsQuery: remove the characters that
break FTS5 ranked-query syntax. -/
def stripSpecial (w : String) : String :=
  String.mk (w.toList.filter (fun c =>
    !(c = ':' || c = '*' || c = '^' || c = '(' || c = ')' || c = '"' || c = '\'')))

/-- Wrap a word in double quotes for the FTS expression. -/
def quoteWord (w : String) : String := "\"" ++ w ++ "\""

/-- formatFtsQuery from search.ts: split on whitespace, keep words longer
than one character, strip special characters, and join the quoted words
with OR. -/
def formatFtsQuery (query : String) : String :=
  let words := ((jsSplitWs query).filter (fun w => 1 < w.length)).map stripSpecial
  if words.length = 0 then ""
  else String.intercalate " OR " (words.map quoteWord)

/-- Maximum of a score list, as the spread Math.max of the source; the
source only uses it on nonempty lists. -/
def listMax (l : List ℚ) : ℚ :=
  match l with
  | [] => 0
  | x :: xs => xs.foldl max x

/-- Search result assembled from a chunk row and a score, as the SELECT
column list builds it. -/
def toSearchResult (c : ChunkRow) (score : ℚ) : SearchResult :=
  ⟨c.path, c.text, c.startLine, c.endLine, score, c.source⟩

/-- The ranked SQL query of search: run the FTS match, join each hit with
its chunk row, apply the source restriction, apply the LIMIT, and shape
the rows. -/
def runFts (fts : String → Except Unit (List (Nat × ℚ))) (db : Db) (q : String)
    (src : String) (limit : Nat) : Except Unit (List SearchResult) :=
  match fts q with
  | .error e => .error e
  | .ok hits =>
    .ok ((((hits.filterMap (fun h => (db.chunks.find? (fun c => c.id = h.1)).map
        (fun c => (c, h.2)))).filter (fun p => sourceFilter src p.1)).take limit).map
        (fun p => toSearchResult p.1 p.2))

/-- Score normalisation of search: on a nonempty result list divide by the
maximum score when it is positive. -/
def normalizeScores (rs : List SearchResult) : List SearchResult :=
  match rs with
  | [] => []
  | _ =>
    let m := listMax (rs.map (fun r => r.score))
    if 0 < m then rs.map (fun r => { r with score := r.score / m }) else rs

/-- Tail of search shared by both attempts: normalise and apply the
minimum-score filter. -/
def finishSearch (minScore : ℚ) (rs : List SearchResult) : List SearchResult :=
  (normalizeScores rs).filter (fun r => minScore ≤ r.score)

/-- search from search.ts: format the query, return an empty list for an
empty expression, run the ranked query, retry once with an aggressively
sanitised word list when the engine rejects the syntax, give up with an
empty list when the retry fails too, and finish with normalisation and the
minimum-score filter. -/
def search (fts : String → Except Unit (List (Nat × ℚ))) (db : Db) (query : String)
    (opts : SearchOpts) : List SearchResult :=
  let maxResults := opts.maxResults.getD 10
  let minScore := opts.minScore.getD 0
  let src := opts.source.getD "all"
  let fq := formatFtsQuery query
  if fq = "" then []
  else
    match runFts fts db fq src maxResults with
    | .ok rs => finishSearch minScore rs
    | .error _ =>
      let simpleWords := ((jsSplitWs query).filter (fun w => 1 < w.length)).map stripSpecial
      let kept := simpleWords.filter (fun w => 0 < w.length)
      let simpleFts := String.intercalate " OR " (kept.map quoteWord)
      if simpleFts = "" then []
      else
        match runFts fts db simpleFts src maxResults with
        | .ok rs => finishSearch minScore rs
        | .error _ => []

/-! ## Stable sorting

SQLite ORDER BY and the JavaScript array sort (stable since ES2019) are
modelled by one stable insertion sort; any stable sort produces the same
list, so this is a faithful model of both. -/

/-- Insert into a sorted list, keeping the inserted element after every
element it does not strictly precede. -/
def insertSorted {α : Type} (le : α → α → Bool) (x : α) : List α → List α
  | [] => [x]
  | y :: ys => if le x y then x :: y :: ys else y :: insertSorted le x ys

/-- Stable insertion sort; le x y means x may come before y. -/
def sortByStable {α : Type} (le : α → α → Bool) (l : List α) : List α :=
  l.foldr (insertSorted le) []

theorem insertSorted_perm {α : Type} (le : α → α → Bool) (x : α) (l : List α) :
    (insertSorted le x l).Perm (x :: l) := by
  induction l with
  | nil => exact List.Perm.refl _
  | cons y ys ih =>
    unfold insertSorted
    by_cases h : le x y = true
    · rw [if_pos h]
    · rw [if_neg h]
      exact ((ih.cons y).trans (List.Perm.swap x y ys))

theorem sortByStable_perm {α : Type} (le : α → α → Bool) (l : List α) :
    (sortByStable le l).Perm l := by
  induction l with
  | nil => exact List.Perm.refl _
  | cons x xs ih =>
    unfold sortByStable
    simp only [List.foldr_cons]
    exact (insertSorted_perm le x _).trans (ih.cons x)

theorem mem_insertSorted {α : Type} (le : α → α → Bool) (x a : α) (l : List α) :
    a ∈ insertSorted le x l ↔ a = x ∨ a ∈ l :=
  ⟨fun h => List.mem_cons.mp ((insertSorted_perm le x l).mem_iff.mp h),
   fun h => (insertSorted_perm le x l).mem_iff.mpr (by
     rcases h with rfl | h
     · exact List.mem_cons_self _ _
     · exact List.mem_cons_of_mem _ h)⟩

theorem insertSorted_pairwise {α : Type} (le : α → α → Bool)
    (htot : ∀ a b, le a b = true ∨ le b a = true)
    (htrans : ∀ a b c, le a b = true → le b c = true → le a c = true) (x : α) (l : List α)
    (hl : List.Pairwise (fun a b => le a b = true) l) :
    List.Pairwise (fun a b => le a b = true) (insertSorted le x l) := by
  induction l with
  | nil => exact List.pairwise_singleton _ x
  | cons y ys ih =>
    unfold insertSorted
    rcases List.pairwise_cons.mp hl with ⟨hy, hys⟩
    by_cases h : le x y = true
    · rw [if_pos h]
      refine List.pairwise_cons.mpr ⟨?_, hl⟩
      intro z hz
      rcases List.mem_cons.mp hz with rfl | hz'
      · exact h
      · exact htrans x y z h (hy z hz')
    · rw [if_neg h]
      refine List.pairwise_cons.mpr ⟨?_, ih hys⟩
      intro z hz
      rcases (mem_insertSorted le x z ys).mp hz with rfl | hz'
      · rcases htot z y with hzy | hyz
        · exact absurd hzy h
        · exact hyz
      · exact hy z hz'

theorem sortByStable_pairwise {α : Type} (le : α → α → Bool)
    (htot : ∀ a b, le a b = true ∨ le b a = true)
    (htrans : ∀ a b c, le a b = true → le b c = true → le a c = true) (l : List α) :
    List.Pairwise (fun a b => le a b = true) (sortByStable le l) := by
  induction l with
  | nil => exact List.Pairwise.nil
  | cons x xs ih =>
    unfold sortByStable
    simp only [List.foldr_cons]
    exact insertSorted_pairwise le htot htrans x _ ih

/-- Row predicate of the getFileChunk SQL: path equality, and when a line
window is given, end line at or after the window start and start line at
or before the window end. -/
def windowPred (path : String) (fromLine lineCount : Option Nat) (c : ChunkRow) : Bool :=
  decide (c.path = path) &&
  (match fromLine with
   | some fl => decide (fl ≤ c.endLine) && decide (c.startLine ≤ fl + lineCount.getD 20)
   | none => true)

/-- getFileChunk from search.ts: select the chunk rows of the path that
intersect the optional line window, order by start line, return null when
none match, and otherwise join the texts with newlines. -/
def getFileChunk (db : Db) (path : String) (fromLine lineCount : Option Nat) :
    Option String :=
  let rows := db.chunks.filter (windowPred path fromLine lineCount)
  let sorted := sortByStable (fun a b => decide (a.startLine ≤ b.startLine)) rows
  if sorted.length = 0 then none
  else some (String.intercalate "\n" (sorted.map (fun c => c.text)))

/-- Intersection of a chunk line span with the requested window, stated as
the specification phrases it. -/
def spanIntersectsWindow (c : ChunkRow) (path : String) (fromLine lineCount : Option Nat) :
    Prop :=
  c.path = path ∧
  match fromLine with
  | some fl => fl ≤ c.endLine ∧ c.startLine ≤ fl + lineCount.getD 20
  | none => True

theorem windowPred_iff (path : String) (fromLine lineCount : Option Nat) (c : ChunkRow) :
    windowPred path fromLine lineCount c = true ↔
      spanIntersectsWindow c path fromLine lineCount := by
  unfold windowPred spanIntersectsWindow
  cases fromLine <;> simp

/-! ## Claim C7 -/

/-- Concrete database for the C7 counterexample: one indexed chunk for the
path, spanning lines 1 to 10. -/
def c7Db : Db :=
  ⟨[⟨"a.md", "memory", "h", 0, 0, 0⟩], [⟨0, "a.md", "memory", 1, 10, "text", "ch", 0⟩], 1⟩

/-- C7 counterexample: with a window starting at line 100, getFileChunk
returns the not-found signal although the path has indexed chunks, so
null is not equivalent to the path having no indexed chunks. -/
theorem getFileChunk_C7_counterexample :
    getFileChunk c7Db "a.md" (some 100) none = none ∧ chunksFor c7Db "a.md" ≠ [] := by
  decide

/-- C7 amended: getFileChunk returns the newline-joined texts, ordered by
start line, of exactly those stored chunks of the path whose span
intersects the window, and returns the not-found signal exactly when no
stored chunk of the path intersects the window (with no window every chunk
of the path intersects). -/
theorem getFileChunk_C7_window (db : Db) (path : String) (fromLine lineCount : Option Nat) :
    (getFileChunk db path fromLine lineCount = none ↔
        ∀ c ∈ db.chunks, ¬ spanIntersectsWindow c path fromLine lineCount) ∧
    (∀ c : ChunkRow, windowPred path fromLine lineCount c = true ↔
        spanIntersectsWindow c path fromLine lineCount) ∧
    (∀ t, getFileChunk db path fromLine lineCount = some t →
      ∃ l : List ChunkRow,
        l.Perm (db.chunks.filter (windowPred path fromLine lineCount)) ∧
        List.Pairwise (fun a b => a.startLine ≤ b.startLine) l ∧
        t = String.intercalate "\n" (l.map (fun c => c.text))) := by
  have hperm := sortByStable_perm (fun a b : ChunkRow => decide (a.startLine ≤ b.startLine))
    (db.chunks.filter (windowPred path fromLine lineCount))
  refine ⟨?_, windowPred_iff path fromLine lineCount, ?_⟩
  · unfold getFileChunk
    constructor
    · intro h c hc hspan
      by_cases hlen : (sortByStable (fun a b : ChunkRow => decide (a.startLine ≤ b.startLine))
          (db.chunks.filter (windowPred path fromLine lineCount))).length = 0
      · have hempty : db.chunks.filter (windowPred path fromLine lineCount) = [] := by
          have := hperm.length_eq
          rw [hlen] at this
          exact List.eq_nil_of_length_eq_zero this.symm
        have : c ∈ db.chunks.filter (windowPred path fromLine lineCount) :=
          List.mem_filter.mpr ⟨hc, (windowPred_iff path fromLine lineCount c).mpr hspan⟩
        rw [hempty] at this
        cases this
      · rw [if_neg hlen] at h
        cases h
    · intro h
      have hempty : db.chunks.filter (windowPred path fromLine lineCount) = [] := by
        apply List.filter_eq_nil_iff.mpr
        intro c hc
        intro hw
        exact h c hc ((windowPred_iff path fromLine lineCount c).mp hw)
      have hlen0 : (sortByStable (fun a b : ChunkRow => decide (a.startLine ≤ b.startLine))
          (db.chunks.filter (windowPred path fromLine lineCount))).length = 0 := by
        rw [hempty]
        rfl
      rw [if_pos hlen0]
  · intro t ht
    unfold getFileChunk at ht
    by_cases hlen : (sortByStable (fun a b : ChunkRow => decide (a.startLine ≤ b.startLine))
        (db.chunks.filter (windowPred path fromLine lineCount))).length = 0
    · rw [if_pos hlen] at ht
      cases ht
    · rw [if_neg hlen] at ht
      refine ⟨sortByStable (fun a b : ChunkRow => decide (a.startLine ≤ b.startLine))
        (db.chunks.filter (windowPred path fromLine lineCount)), hperm, ?_, ?_⟩
      · have := sortByStable_pairwise (fun a b : ChunkRow => decide (a.startLine ≤ b.startLine))
          (fun a b => by
            rcases Nat.le_total a.startLine b.startLine with h | h
            · exact Or.inl (decide_eq_true h)
            · exact Or.inr (decide_eq_true h))
          (fun a b c hab hbc =>
            decide_eq_true (Nat.le_trans (of_decide_eq_true hab) (of_decide_eq_true hbc)))
          (db.chunks.filter (windowPred path fromLine lineCount))
        exact this.imp (fun h => of_decide_eq_true h)
      · exact (Option.some.injEq _ _ ▸ ht).symm

/-- Witness for C7 amended, applied at a concrete database and window. -/
theorem getFileChunk_C7_window_witness :
    getFileChunk c7Db "a.md" (some 2) (some 3) = none ↔
      ∀ c ∈ c7Db.chunks, ¬ spanIntersectsWindow c "a.md" (some 2) (some 3) :=
  (getFileChunk_C7_window c7Db "a.md" (some 2) (some 3)).1

/-! ## Claim C6 -/

theorem jsSplitWsAux_all_empty (l : List Char) (h : ∀ c ∈ l, c.isWhitespace = true) :
    (∀ w ∈ jsSplitWsAux l (some []), w = "") ∧ (∀ w ∈ jsSplitWsAux l none, w = "") := by
  induction l with
  | nil =>
    constructor <;> intro w hw <;> simp [jsSplitWsAux] at hw <;> simp [hw]
  | cons c rest ih =>
    have hc := h c (by simp)
    have ih' := ih (fun c hc => h c (by simp [hc]))
    constructor <;> intro w hw
    · unfold jsSplitWsAux at hw
      rw [if_pos hc] at hw
      rcases List.mem_cons.mp hw with rfl | hw'
      · rfl
      · exact ih'.2 w hw'
    · unfold jsSplitWsAux at hw
      rw [if_pos hc] at hw
      exact ih'.2 w hw

theorem formatFtsQuery_ws (query : String) (h : ∀ c ∈ query.toList, c.isWhitespace = true) :
    formatFtsQuery query = "" := by
  unfold formatFtsQuery jsSplitWs
  have hall := (jsSplitWsAux_all_empty query.toList h).1
  have hfilter : ((jsSplitWsAux query.toList (some [])).filter (fun w => 1 < w.length))
      = [] := by
    apply List.filter_eq_nil_iff.mpr
    intro w hw
    rw [hall w hw]
    simp
  rw [hfilter]
  rfl

/-- C6: a whitespace-only (or empty) query makes search return an empty
list with no error; when the engine rejects the generated expression,
search retries once with the aggressively sanitised word list: if the
retry is accepted, search returns the normalised and min-score filtered
rows of the ranked query for the sanitised expression, and if the retry
is also rejected, search returns an empty list rather than an error. -/
theorem search_C6_emptyAndRetry (fts : String → Except Unit (List (Nat × ℚ))) (db : Db)
    (query : String) (opts : SearchOpts) :
    ((∀ c ∈ query.toList, c.isWhitespace = true) → search fts db query opts = []) ∧
    (fts (formatFtsQuery query) = .error () →
      fts (String.intercalate " OR "
        (((((jsSplitWs query).filter (fun w => 1 < w.length)).map stripSpecial).filter
            (fun w => 0 < w.length)).map quoteWord)) = .error () →
      search fts db query opts = []) ∧
    (∀ rs : List SearchResult,
      fts (formatFtsQuery query) = .error () →
      formatFtsQuery query ≠ "" →
      String.intercalate " OR "
        (((((jsSplitWs query).filter (fun w => 1 < w.length)).map stripSpecial).filter
            (fun w => 0 < w.length)).map quoteWord) ≠ "" →
      runFts fts db (String.intercalate " OR "
        (((((jsSplitWs query).filter (fun w => 1 < w.length)).map stripSpecial).filter
            (fun w => 0 < w.length)).map quoteWord)) (opts.source.getD "all")
        (opts.maxResults.getD 10) = .ok rs →
      search fts db query opts = finishSearch (opts.minScore.getD 0) rs) := by
  refine ⟨?_, ?_, ?_⟩
  · intro hws
    unfold search
    rw [formatFtsQuery_ws query hws]
    rfl
  · intro h1 h2
    unfold search
    by_cases hq : formatFtsQuery query = ""
    · rw [if_pos hq]
    · rw [if_neg hq]
      have hr1 : runFts fts db (formatFtsQuery query) (opts.source.getD "all")
          (opts.maxResults.getD 10) = .error () := by
        unfold runFts
        rw [h1]
      rw [hr1]
      by_cases hs : String.intercalate " OR "
          ((((((jsSplitWs query).filter (fun w => 1 < w.length)).map stripSpecial).filter
              (fun w => 0 < w.length)).map quoteWord)) = ""
      · simp [hs]
      · rw [if_neg hs]
        have hr2 : runFts fts db (String.intercalate " OR "
            ((((((jsSplitWs query).filter (fun w => 1 < w.length)).map stripSpecial).filter
                (fun w => 0 < w.length)).map quoteWord))) (opts.source.getD "all")
            (opts.maxResults.getD 10) = .error () := by
          unfold runFts
          rw [h2]
        rw [hr2]
  · intro rs h1 hq hs hok
    unfold search
    rw [if_neg hq]
    have hr1 : runFts fts db (formatFtsQuery query) (opts.source.getD "all")
        (opts.maxResults.getD 10) = .error () := by
      unfold runFts
      rw [h1]
    rw [hr1, if_neg hs, hok]

/-- Witness for C6: a backend that rejects every expression produces an
empty result list for a concrete query, and a backend that rejects the
generated expression but accepts the sanitised retry makes search return
the retry's rows, normalised and filtered. -/
theorem search_C6_emptyAndRetry_witness :
    search (fun _ => .error ()) ⟨[], [], 0⟩ "boom town" ⟨none, none, none⟩ = [] ∧
    search (fun q => if q = "\"ab\"" then .ok [(0, 2)] else .error ())
        ⟨[], [⟨0, "a.md", "memory", 1, 2, "hello", "h", 0⟩], 1⟩ "ab ::"
        ⟨none, none, none⟩
      = finishSearch 0 [⟨"a.md", "hello", 1, 2, 2, "memory"⟩] :=
  ⟨(search_C6_emptyAndRetry (fun _ => .error ()) ⟨[], [], 0⟩ "boom town"
      ⟨none, none, none⟩).2.1 rfl rfl,
   (search_C6_emptyAndRetry (fun q => if q = "\"ab\"" then .ok [(0, 2)] else .error ())
      ⟨[], [⟨0, "a.md", "memory", 1, 2, "hello", "h", 0⟩], 1⟩ "ab ::"
      ⟨none, none, none⟩).2.2 [⟨"a.md", "hello", 1, 2, 2, "memory"⟩]
      rfl (by decide) (by decide) rfl⟩

/-! ## Watcher (kit/search/src/indexer.ts watchMemory)

The watcher closure is modelled as a state holding the pending path set,
whether a debounce timer is armed, and whether the chokidar watcher has
been closed.  Events and the timer firing are the transitions.  The
disposer of the handle returned by watchMemory is the chokidar close; the
debounce timer and the pending set live in the enclosing closure and no
code connects them to the close call. -/

/-- State of the watcher closure. -/
structure WatchState where
  db : Db
  pending : List String
  timerSet : Bool
  closed : Bool
deriving Repr, DecidableEq

/-- scheduleProcess from watchMemory: record the path in the pending set
and re-arm the debounce timer. -/
def scheduleProcess (s : WatchState) (p : String) : WatchState :=
  { s with pending := if s.pending.contains p then s.pending else s.pending ++ [p],
           timerSet := true }

/-- Handling of one pending path inside processChanges: remove the rows of
a path whose file no longer exists, ignore unreadable and binary files,
skip on a hash match, and otherwise re-index the file. -/
def flushStep (chunkHash fileHash : String → String) (now : Nat) (fs : List FsFile)
    (db : Db) (p : String) : Db :=
  match fs.find? (fun f => f.path = p) with
  | none => removeFile db p
  | some f =>
    match f.content with
    | none => db
    | some content =>
      if isBinary content then db
      else
        match db.files.find? (fun fr => fr.path = p) with
        | some fr =>
          if fr.hash = fileHash content then db
          else indexFile chunkHash db p "memory" content (fileHash content)
            f.mtimeMs f.size now
        | none => indexFile chunkHash db p "memory" content (fileHash content)
            f.mtimeMs f.size now

/-- processChanges from watchMemory: handle every pending path in
insertion order, then clear the pending set; the timer that ran the flush
is spent. -/
def processChanges (chunkHash fileHash : String → String) (now : Nat) (fs : List FsFile)
    (s : WatchState) : WatchState :=
  { s with db := s.pending.foldl (flushStep chunkHash fileHash now fs) s.db,
           pending := [], timerSet := false }

/-- The disposer of the watchMemory handle: chokidar close stops event
delivery and releases the watch resources.  Nothing in watchMemory clears
or awaits the debounce timer on close. -/
def closeWatcher (s : WatchState) : WatchState :=
  { s with closed := true }

theorem flushStep_frame (chunkHash fileHash : String → String) (now : Nat)
    (fs : List FsFile) (db : Db) (p : String) {q : String} (hq : q ≠ p) :
    filesFor (flushStep chunkHash fileHash now fs db p) q = filesFor db q ∧
    chunksFor (flushStep chunkHash fileHash now fs db p) q = chunksFor db q := by
  unfold flushStep
  cases hfs : fs.find? (fun f => f.path = p) with
  | none => simpa using removeFile_frame db p hq
  | some f =>
    cases hfc : f.content with
    | none => simp [hfc]
    | some content =>
      by_cases hb : isBinary content = true
      · simp [hfc, hb]
      · cases hfind : db.files.find? (fun fr => fr.path = p) with
        | none =>
          have hifr := indexFile_frame chunkHash db p "memory" content (fileHash content)
            f.mtimeMs f.size now hq
          simpa [hfc, hb, hfind] using hifr
        | some fr =>
          by_cases hh : fr.hash = fileHash content
          · simp [hfc, hb, hfind, hh]
          · have hifr := indexFile_frame chunkHash db p "memory" content (fileHash content)
              f.mtimeMs f.size now hq
            simpa [hfc, hb, hfind, hh] using hifr

theorem flushFold_frame (chunkHash fileHash : String → String) (now : Nat)
    (fs : List FsFile) (pending : List String) (q : String) (hq : q ∉ pending) :
    ∀ db : Db,
      filesFor (pending.foldl (flushStep chunkHash fileHash now fs) db) q
        = filesFor db q ∧
      chunksFor (pending.foldl (flushStep chunkHash fileHash now fs) db) q
        = chunksFor db q := by
  induction pending with
  | nil => intro db; exact ⟨rfl, rfl⟩
  | cons p rest ih =>
    intro db
    simp only [List.foldl_cons]
    have hqp : q ≠ p := fun hcontr => hq (by simp [hcontr])
    have hstep := flushStep_frame chunkHash fileHash now fs db p hqp
    have hrest := ih (fun hcontr => hq (by simp [hcontr]))
      (flushStep chunkHash fileHash now fs db p)
    exact ⟨hrest.1.trans hstep.1, hrest.2.trans hstep.2⟩

theorem flushFold_removes_missing (chunkHash fileHash : String → String) (now : Nat)
    (fs : List FsFile) (pending : List String) (hnd : pending.Nodup) (p : String)
    (hp : p ∈ pending) (hfs : fs.find? (fun f => f.path = p) = none) :
    ∀ db : Db,
      filesFor (pending.foldl (flushStep chunkHash fileHash now fs) db) p = [] ∧
      chunksFor (pending.foldl (flushStep chunkHash fileHash now fs) db) p = [] := by
  induction pending with
  | nil => cases hp
  | cons q rest ih =>
    intro db
    rw [List.nodup_cons] at hnd
    simp only [List.foldl_cons]
    rcases List.mem_cons.mp hp with rfl | hp'
    · have hstep : flushStep chunkHash fileHash now fs db p = removeFile db p := by
        unfold flushStep
        rw [hfs]
      rw [hstep]
      have hframe := flushFold_frame chunkHash fileHash now fs rest p hnd.1
        (removeFile db p)
      exact ⟨hframe.1.trans (removeFile_self db p).1, hframe.2.trans (removeFile_self db p).2⟩
    · exact ih hnd.2 hp' (flushStep chunkHash fileHash now fs db q)

/-! ## Claim C8 -/

/-- Concrete watcher state for the C8 counterexample: a pending file event
with its debounce timer armed. -/
def c8State : WatchState := ⟨⟨[], [], 0⟩, ["a.md"], true, false⟩

/-- C8 counterexample: invoking the disposer on a state with a scheduled
flush leaves the pending event unprocessed, so close does not block until
the already-scheduled flush has completed. -/
theorem watch_C8_counterexample :
    (closeWatcher c8State).pending = ["a.md"] ∧
    (closeWatcher c8State).timerSet = true ∧
    (closeWatcher c8State).db = c8State.db ∧
    (closeWatcher c8State).pending ≠ [] := by
  decide

/-- C8 amended: the disposer only stops event delivery: it leaves the
pending set, the armed timer, and the store exactly as they were, and the
pending events are processed only when the debounce flush itself runs,
which clears the whole pending set, removes the rows of every pending
path whose file has disappeared, and leaves the rows of paths outside the
pending set untouched. -/
theorem watch_C8_closeBehavior (chunkHash fileHash : String → String) (now : Nat)
    (fs : List FsFile) (s : WatchState) (hnd : s.pending.Nodup) :
    (closeWatcher s).pending = s.pending ∧
    (closeWatcher s).timerSet = s.timerSet ∧
    (closeWatcher s).db = s.db ∧
    (closeWatcher s).closed = true ∧
    (processChanges chunkHash fileHash now fs s).pending = [] ∧
    (processChanges chunkHash fileHash now fs s).timerSet = false ∧
    (∀ p ∈ s.pending, fs.find? (fun f => f.path = p) = none →
      filesFor (processChanges chunkHash fileHash now fs s).db p = [] ∧
      chunksFor (processChanges chunkHash fileHash now fs s).db p = []) ∧
    (∀ q, q ∉ s.pending →
      filesFor (processChanges chunkHash fileHash now fs s).db q = filesFor s.db q ∧
      chunksFor (processChanges chunkHash fileHash now fs s).db q = chunksFor s.db q) := by
  refine ⟨rfl, rfl, rfl, rfl, rfl, rfl, ?_, ?_⟩
  · intro p hp hfs
    exact flushFold_removes_missing chunkHash fileHash now fs s.pending hnd p hp hfs s.db
  · intro q hq
    exact flushFold_frame chunkHash fileHash now fs s.pending q hq s.db

/-- Witness for C8 amended at a concrete state: the flush removes the rows
of a pending path whose file no longer exists. -/
theorem watch_C8_closeBehavior_witness :
    filesFor (processChanges (fun s => s) (fun s => s) 4 []
        ⟨⟨[⟨"a.md", "memory", "h", 0, 0, 0⟩], [], 3⟩, ["a.md"], true, false⟩).db "a.md" = [] :=
  ((watch_C8_closeBehavior (fun s => s) (fun s => s) 4 []
      ⟨⟨[⟨"a.md", "memory", "h", 0, 0, 0⟩], [], 3⟩, ["a.md"], true, false⟩
      (by decide)).2.2.2.2.2.2.1 "a.md" (by decide) rfl).1

/-! ## Sessions (sessions.ts logSession) and claim C10 -/

/-- Transcript entry, as the SessionEntry interface of types.ts. -/
structure SessionEntry where
  timestamp : String
  sessionId : String
  role : String
  content : String
  source : String
deriving Repr, DecidableEq

/-- logSession from sessions.ts, modelled on the transcript file of the
day as the list of its JSONL entries: the full entry is assembled with
the timestamp and the session id filled in here and the content truncated
to its first 5000 characters, then appended to the file. -/
def logSession (now sessionId : String) (role content source : String)
    (file : List SessionEntry) : List SessionEntry × SessionEntry :=
  let fullEntry : SessionEntry :=
    ⟨now, sessionId, role, String.mk (content.toList.take 5000), source⟩
  (file ++ [fullEntry], fullEntry)

/-- C10: logSession truncates the entry content to its first 5000
characters before appending, leaves content of at most 5000 characters
unchanged, copies role and source, and fills in the timestamp and session
id itself. -/
theorem logSession_C10_truncates (now sessionId role content source : String)
    (file : List SessionEntry) :
    (logSession now sessionId role content source file).1
        = file ++ [(logSession now sessionId role content source file).2] ∧
    (logSession now sessionId role content source file).2.timestamp = now ∧
    (logSession now sessionId role content source file).2.sessionId = sessionId ∧
    (logSession now sessionId role content source file).2.role = role ∧
    (logSession now sessionId role content source file).2.source = source ∧
    (logSession now sessionId role content source file).2.content
        = String.mk (content.toList.take 5000) ∧
    (content.toList.length ≤ 5000 →
      (logSession now sessionId role content source file).2.content = content) := by
  refine ⟨rfl, rfl, rfl, rfl, rfl, rfl, ?_⟩
  intro h
  show String.mk (content.toList.take 5000) = content
  rw [List.take_of_length_le h]
  cases content
  rfl

/-- Witness for C10: a short content string is written unchanged. -/
theorem logSession_C10_truncates_witness :
    (logSession "t0" "s1" "user" "hi" "telegram" []).2.content = "hi" :=
  (logSession_C10_truncates "t0" "s1" "user" "hi" "telegram" []).2.2.2.2.2.2 (by decide)

/-! ## Hybrid search (kit/search/src/search.ts hybridSearch)

The embedding provider and the vectors table are model parameters: a flag
for provider availability, a flag for the existence of the vectors table,
the chunk id column of the vectors table in row order, a flag for whether
embedding the query succeeds, and the cosine similarity of the query
embedding against the stored embedding of each chunk id (floating point
cosine values become rationals). -/

/-- Environment of the optional vector side of hybridSearch. -/
structure VectorEnv where
  embedAvailable : Bool
  hasVectorsTable : Bool
  vectors : List Nat
  queryEmbedOk : Bool
  cosine : Nat → ℚ

/-- Options of hybridSearch, with caller-configurable weights defaulting
to one half each. -/
structure HybridOpts where
  maxResults : Option Nat
  minScore : Option ℚ
  source : Option String
  bm25Weight : Option ℚ
  vectorWeight : Option ℚ

/-- JavaScript Map.set on an association list: replace the value in place
when the key exists, otherwise append. -/
def mapSet {α : Type} (m : List (Nat × α)) (k : Nat) (v : α) : List (Nat × α) :=
  if (m.find? (fun e => e.1 = k)).isSome then
    m.map (fun e => if e.1 = k then (k, v) else e)
  else m ++ [(k, v)]

/-- JavaScript Map.get on an association list. -/
def mapGet {α : Type} (m : List (Nat × α)) (k : Nat) : Option α :=
  (m.find? (fun e => e.1 = k)).map (fun e => e.2)

/-- Construction of the chunk id to bm25 entry map of hybridSearch: each
candidate result is mapped back to its chunk id by looking up the chunk
with its path and line span. -/
def bm25MapOf (db : Db) (rs : List SearchResult) : List (Nat × (SearchResult × ℚ)) :=
  rs.foldl (fun m r =>
    match db.chunks.find? (fun c =>
        decide (c.path = r.path) && decide (c.startLine = r.startLine) &&
        decide (c.endLine = r.endLine)) with
    | some c => mapSet m c.id (r, r.score)
    | none => m) []

/-- The stored-vector rows joined with their chunk rows, restricted by the
source filter, in table row order. -/
def vectorJoin (env : VectorEnv) (db : Db) (src : String) : List (Nat × ChunkRow) :=
  env.vectors.filterMap (fun vid =>
    (db.chunks.find? (fun c => c.id = vid)).bind (fun c =>
      if sourceFilter src c then some (vid, c) else none))

/-- The maximum clamped cosine similarity observed over the joined vector
rows of this query. -/
def maxCosineOf (env : VectorEnv) (rows : List (Nat × ChunkRow)) : ℚ :=
  listMax (rows.map (fun vc => max 0 (env.cosine vc.1)))

/-- The chunk id to clamped-and-normalised cosine map of hybridSearch. -/
def vectorScoresOf (env : VectorEnv) (rows : List (Nat × ChunkRow)) :
    List (Nat × (ℚ × ChunkRow)) :=
  if 0 < maxCosineOf env rows then
    (rows.foldl (fun m vc => mapSet m vc.1 (max 0 (env.cosine vc.1), vc.2)) []).map
      (fun e => (e.1, (e.2.1 / maxCosineOf env rows, e.2.2)))
  else rows.foldl (fun m vc => mapSet m vc.1 (max 0 (env.cosine vc.1), vc.2)) []

/-- The merge loop of hybridSearch over the union of chunk identities seen
in either ranking, in insertion order. -/
def mergedOf (bm25Map : List (Nat × (SearchResult × ℚ)))
    (vectorScores : List (Nat × (ℚ × ChunkRow))) (wB wV : ℚ) :
    List (Nat × ℚ × SearchResult) :=
  (dedupKeepFirst (bm25Map.map (fun e => e.1) ++ vectorScores.map (fun e => e.1))).filterMap
    (fun cid =>
      let b := mapGet bm25Map cid
      let v := mapGet vectorScores cid
      let bmScore : ℚ := match b with | some e => e.2 | none => 0
      let cosScore : ℚ := match v with | some e => e.1 | none => 0
      let hybridScore := wB * bmScore + wV * cosScore
      match b with
      | some e => some (cid, hybridScore, { e.1 with score := hybridScore })
      | none =>
        match v with
        | some e => some (cid, hybridScore, toSearchResult e.2 hybridScore)
        | none => none)

/-- Tail of the ranking of the merged list, after the stable sort:
re-normalise by the new maximum (the head score of the descending list),
truncate, and filter. -/
def rankPipeline (sorted : List (Nat × ℚ × SearchResult)) (m : Nat) (ms : ℚ) :
    List SearchResult :=
  let maxHybrid : ℚ := match sorted with | [] => 0 | x :: _ => x.2.1
  let results0 := sorted.map (fun e => e.2.2)
  let normalized := if 0 < maxHybrid then
      results0.map (fun r => { r with score := r.score / maxHybrid }) else results0
  (normalized.take m).filter (fun r => ms ≤ r.score)

/-- Final ranking of the merged list: stable sort descending by merged
score, re-normalise by the new maximum, truncate, and filter. -/
def rankMerged (merged : List (Nat × ℚ × SearchResult)) (m : Nat) (ms : ℚ) :
    List SearchResult :=
  rankPipeline (sortByStable (fun a b => decide (b.2.1 ≤ a.2.1)) merged) m ms

/-- hybridSearch from search.ts: fetch a threefold lexical candidate set,
fall back to BM25-only when the provider or the vectors table or stored
vectors or the query embedding are missing, and otherwise merge the two
rankings over the union of chunk identities, sort by merged score,
re-normalise, truncate, and filter. -/
def hybridSearch (fts : String → Except Unit (List (Nat × ℚ))) (env : VectorEnv) (db : Db)
    (query : String) (opts : HybridOpts) : List SearchResult × String :=
  let maxResults := opts.maxResults.getD 10
  let minScore := opts.minScore.getD 0
  let src := opts.source.getD "all"
  let bm25Weight := opts.bm25Weight.getD (1/2 : ℚ)
  let vectorWeight := opts.vectorWeight.getD (1/2 : ℚ)
  let bm25Results := search fts db query ⟨some (maxResults * 3), some 0, some src⟩
  let fallback := ((bm25Results.take maxResults).filter (fun r => minScore ≤ r.score), "bm25")
  if !(env.embedAvailable && env.hasVectorsTable) then fallback
  else if env.vectors.length = 0 then fallback
  else if !env.queryEmbedOk then fallback
  else
    (rankMerged
      (mergedOf (bm25MapOf db bm25Results) (vectorScoresOf env (vectorJoin env db src))
        bm25Weight vectorWeight)
      maxResults minScore, "hybrid")

/-! ## Shape of search results, towards claims C4 and C5 -/

theorem pairwise_filterMap_of {α β : Type} (f : α → Option β) (R : α → α → Prop)
    (S : β → β → Prop)
    (hf : ∀ a b x y, R a b → f a = some x → f b = some y → S x y) :
    ∀ l : List α, List.Pairwise R l → List.Pairwise S (l.filterMap f) := by
  intro l hl
  induction l with
  | nil => simp
  | cons a l ih =>
    rcases List.pairwise_cons.mp hl with ⟨ha, hl'⟩
    cases hfa : f a with
    | none => simpa [List.filterMap_cons, hfa] using ih hl'
    | some x =>
      rw [List.filterMap_cons, hfa]
      refine List.pairwise_cons.mpr ⟨?_, ih hl'⟩
      intro y hy
      rcases List.mem_filterMap.mp hy with ⟨b, hb, hfb⟩
      exact hf a b x y (ha b hb) hfa hfb

theorem listMax_of_head_ge (x : ℚ) (l : List ℚ) (h : ∀ y ∈ l, y ≤ x) :
    listMax (x :: l) = x := by
  unfold listMax
  induction l generalizing x with
  | nil => rfl
  | cons y ys ih =>
    simp only [List.foldl_cons]
    rw [max_eq_left (h y (by simp))]
    exact ih x (fun z hz => h z (by simp [hz]))

/-- normalizeScores on a nonempty list, unfolded. -/
theorem normalizeScores_cons (a : SearchResult) (l : List SearchResult) :
    normalizeScores (a :: l)
      = if 0 < listMax ((a :: l).map (fun r => r.score)) then
          (a :: l).map (fun r =>
            { r with score := r.score / listMax ((a :: l).map (fun r => r.score)) })
        else a :: l := rfl

/-- Every search call produces, for some fixed descending nonnegative
candidate list depending only on the query, the source filter and the
engine, the normalised and filtered prefix of that list of the requested
length.  The candidate list is shared between different limits of the same
query, which is what makes the BM25 fallback of hybridSearch agree with a
plain search. -/
theorem search_shape (fts : String → Except Unit (List (Nat × ℚ))) (db : Db)
    (query : String) (src : String)
    (hsorted : ∀ q hits, fts q = .ok hits →
      List.Pairwise (fun a b : Nat × ℚ => b.2 ≤ a.2) hits)
    (hnonneg : ∀ q hits, fts q = .ok hits → ∀ h ∈ hits, 0 ≤ h.2) :
    ∃ K : List SearchResult,
      List.Pairwise (fun a b => b.score ≤ a.score) K ∧ (∀ r ∈ K, 0 ≤ r.score) ∧
      ∀ (m : Nat) (ms : ℚ), search fts db query ⟨some m, some ms, some src⟩
        = finishSearch ms (K.take m) := by
  by_cases hq : formatFtsQuery query = ""
  · refine ⟨[], List.Pairwise.nil, by simp, ?_⟩
    intro m ms
    unfold search
    rw [if_pos hq, List.take_nil]
    rfl
  · have hK : ∀ hits, fts (formatFtsQuery query) = .ok hits →
        ∃ K : List SearchResult,
          List.Pairwise (fun a b => b.score ≤ a.score) K ∧ (∀ r ∈ K, 0 ≤ r.score) ∧
          ∀ (m : Nat) (ms : ℚ), search fts db query ⟨some m, some ms, some src⟩
            = finishSearch ms (K.take m) := by
      intro hits hok
      refine ⟨(((hits.filterMap (fun h => (db.chunks.find? (fun c => c.id = h.1)).map
          (fun c => (c, h.2)))).filter (fun p => sourceFilter src p.1)).map
          (fun p => toSearchResult p.1 p.2)), ?_, ?_, ?_⟩
      · rw [List.pairwise_map]
        apply List.Pairwise.filter
        apply pairwise_filterMap_of _ (fun a b : Nat × ℚ => b.2 ≤ a.2)
          (fun a b : ChunkRow × ℚ => b.2 ≤ a.2)
        · intro a b x y hab hfa hfb
          rcases Option.map_eq_some'.mp hfa with ⟨ca, _, rfl⟩
          rcases Option.map_eq_some'.mp hfb with ⟨cb, _, rfl⟩
          exact hab
        · exact hsorted _ hits hok
      · intro r hr
        rcases List.mem_map.mp hr with ⟨p, hp, rfl⟩
        have hp2 := List.mem_of_mem_filter hp
        rcases List.mem_filterMap.mp hp2 with ⟨h, hh, hsome⟩
        rcases Option.map_eq_some'.mp hsome with ⟨c, _, rfl⟩
        exact hnonneg _ hits hok h hh
      · intro m ms
        unfold search
        rw [if_neg hq]
        have hr : runFts fts db (formatFtsQuery query) src m
            = .ok ((((hits.filterMap (fun h => (db.chunks.find? (fun c => c.id = h.1)).map
              (fun c => (c, h.2)))).filter (fun p => sourceFilter src p.1)).take m).map
              (fun p => toSearchResult p.1 p.2)) := by
          unfold runFts
          rw [hok]
        rw [show (some src).getD "all" = src from rfl,
          show (some m).getD 10 = m from rfl, hr]
        rw [List.map_take]
        rfl
    cases hfts : fts (formatFtsQuery query) with
    | ok hits => exact hK hits hfts
    | error e =>
      by_cases hs : String.intercalate " OR "
          ((((((jsSplitWs query).filter (fun w => 1 < w.length)).map stripSpecial).filter
              (fun w => 0 < w.length)).map quoteWord)) = ""
      · refine ⟨[], List.Pairwise.nil, by simp, ?_⟩
        intro m ms
        unfold search
        rw [if_neg hq]
        have hr : runFts fts db (formatFtsQuery query) src m = .error e := by
          unfold runFts
          rw [hfts]
        rw [show (some src).getD "all" = src from rfl,
          show (some m).getD 10 = m from rfl, hr]
        simp [hs, finishSearch, normalizeScores]
      · cases hfts2 : fts (String.intercalate " OR "
            ((((((jsSplitWs query).filter (fun w => 1 < w.length)).map stripSpecial).filter
                (fun w => 0 < w.length)).map quoteWord))) with
        | error e2 =>
          refine ⟨[], List.Pairwise.nil, by simp, ?_⟩
          intro m ms
          unfold search
          rw [if_neg hq]
          have hr : runFts fts db (formatFtsQuery query) src m = .error e := by
            unfold runFts
            rw [hfts]
          rw [show (some src).getD "all" = src from rfl,
            show (some m).getD 10 = m from rfl, hr]
          rw [if_neg hs]
          have hr2 : runFts fts db (String.intercalate " OR "
              ((((((jsSplitWs query).filter (fun w => 1 < w.length)).map stripSpecial).filter
                  (fun w => 0 < w.length)).map quoteWord))) src m = .error e2 := by
            unfold runFts
            rw [hfts2]
          rw [hr2, List.take_nil]
          rfl
        | ok hits2 =>
          refine ⟨(((hits2.filterMap (fun h => (db.chunks.find? (fun c => c.id = h.1)).map
              (fun c => (c, h.2)))).filter (fun p => sourceFilter src p.1)).map
              (fun p => toSearchResult p.1 p.2)), ?_, ?_, ?_⟩
          · rw [List.pairwise_map]
            apply List.Pairwise.filter
            apply pairwise_filterMap_of _ (fun a b : Nat × ℚ => b.2 ≤ a.2)
              (fun a b : ChunkRow × ℚ => b.2 ≤ a.2)
            · intro a b x y hab hfa hfb
              rcases Option.map_eq_some'.mp hfa with ⟨ca, _, rfl⟩
              rcases Option.map_eq_some'.mp hfb with ⟨cb, _, rfl⟩
              exact hab
            · exact hsorted _ hits2 hfts2
          · intro r hr
            rcases List.mem_map.mp hr with ⟨p, hp, rfl⟩
            have hp2 := List.mem_of_mem_filter hp
            rcases List.mem_filterMap.mp hp2 with ⟨h, hh, hsome⟩
            rcases Option.map_eq_some'.mp hsome with ⟨c, _, rfl⟩
            exact hnonneg _ hits2 hfts2 h hh
          · intro m ms
            unfold search
            rw [if_neg hq]
            have hr : runFts fts db (formatFtsQuery query) src m = .error e := by
              unfold runFts
              rw [hfts]
            rw [show (some src).getD "all" = src from rfl,
              show (some m).getD 10 = m from rfl, hr]
            rw [if_neg hs]
            have hr2 : runFts fts db (String.intercalate " OR "
                ((((((jsSplitWs query).filter (fun w => 1 < w.length)).map stripSpecial).filter
                    (fun w => 0 < w.length)).map quoteWord))) src m
                = .ok ((((hits2.filterMap (fun h =>
                  (db.chunks.find? (fun c => c.id = h.1)).map (fun c => (c, h.2)))).filter
                  (fun p => sourceFilter src p.1)).take m).map
                  (fun p => toSearchResult p.1 p.2)) := by
              unfold runFts
              rw [hfts2]
            rw [hr2]
            rw [List.map_take]
            rfl

/-- Truncating and min-score filtering the threefold normalised candidate
fetch of the hybrid fallback gives exactly a plain search with the
requested limit and minimum score, because normalisation divides by the
score of the shared head element in both cases. -/
theorem finish_take (K : List SearchResult)
    (hdesc : List.Pairwise (fun a b => b.score ≤ a.score) K)
    (hnn : ∀ r ∈ K, 0 ≤ r.score) (m : Nat) (ms : ℚ) :
    ((finishSearch 0 (K.take (m * 3))).take m).filter (fun r => ms ≤ r.score)
      = finishSearch ms (K.take m) := by
  by_cases hm : m = 0
  · subst hm
    simp [finishSearch, normalizeScores]
  · obtain ⟨n, rfl⟩ := Nat.exists_eq_succ_of_ne_zero hm
    cases K with
    | nil => simp [finishSearch, normalizeScores]
    | cons x xs =>
      have hxle : ∀ y ∈ xs, y.score ≤ x.score := (List.pairwise_cons.mp hdesc).1
      have h3 : (n + 1) * 3 = (n * 3 + 2) + 1 := by ring
      have ht3 : (x :: xs).take ((n + 1) * 3) = x :: xs.take (n * 3 + 2) := by
        rw [h3, List.take_succ_cons]
      have ht1 : (x :: xs).take (n + 1) = x :: xs.take n := List.take_succ_cons
      have hmax3 : listMax ((x :: xs.take (n * 3 + 2)).map (fun r => r.score)) = x.score := by
        rw [List.map_cons]
        apply listMax_of_head_ge
        intro y hy
        rcases List.mem_map.mp hy with ⟨r, hr, rfl⟩
        exact hxle r (List.mem_of_mem_take hr)
      have hmax1 : listMax ((x :: xs.take n).map (fun r => r.score)) = x.score := by
        rw [List.map_cons]
        apply listMax_of_head_ge
        intro y hy
        rcases List.mem_map.mp hy with ⟨r, hr, rfl⟩
        exact hxle r (List.mem_of_mem_take hr)
      have hmemnn : ∀ r ∈ x :: xs.take (n * 3 + 2), 0 ≤ r.score := by
        intro r hr
        rcases List.mem_cons.mp hr with rfl | h
        · exact hnn _ (by simp)
        · exact hnn r (List.mem_cons_of_mem _ (List.mem_of_mem_take h))
      rw [ht3, ht1]
      by_cases hpos : 0 < x.score
      · have hfin3 : finishSearch 0 (x :: xs.take (n * 3 + 2))
            = (x :: xs.take (n * 3 + 2)).map
                (fun r => { r with score := r.score / x.score }) := by
          unfold finishSearch
          rw [normalizeScores_cons, hmax3, if_pos hpos]
          apply List.filter_eq_self.mpr
          intro r hr
          rcases List.mem_map.mp hr with ⟨r0, hr0, rfl⟩
          simp only [decide_eq_true_eq]
          exact div_nonneg (hmemnn r0 hr0) (le_of_lt hpos)
        have hfin1 : finishSearch ms (x :: xs.take n)
            = ((x :: xs.take n).map
                (fun r => { r with score := r.score / x.score })).filter
                (fun r => ms ≤ r.score) := by
          unfold finishSearch
          rw [normalizeScores_cons, hmax1, if_pos hpos]
        rw [hfin3, hfin1]
        rw [← List.map_take, List.take_succ_cons, List.take_take]
        have hmin : min n (n * 3 + 2) = n := by omega
        rw [hmin]
      · have hfin3 : finishSearch 0 (x :: xs.take (n * 3 + 2))
            = x :: xs.take (n * 3 + 2) := by
          unfold finishSearch
          rw [normalizeScores_cons, hmax3, if_neg hpos]
          apply List.filter_eq_self.mpr
          intro r hr
          simp only [decide_eq_true_eq]
          exact hmemnn r hr
        have hfin1 : finishSearch ms (x :: xs.take n)
            = (x :: xs.take n).filter (fun r => ms ≤ r.score) := by
          unfold finishSearch
          rw [normalizeScores_cons, hmax1, if_neg hpos]
        rw [hfin3, hfin1]
        rw [List.take_succ_cons, List.take_take]
        have hmin : min n (n * 3 + 2) = n := by omega
        rw [hmin]

/-- In any of the three degraded situations, hybridSearch returns the
fallback pair built from the threefold candidate fetch. -/
theorem hybridSearch_fallback_eq (fts : String → Except Unit (List (Nat × ℚ)))
    (env : VectorEnv) (db : Db) (query : String) (opts : HybridOpts)
    (hcase : env.embedAvailable = false ∨ env.hasVectorsTable = false ∨
      env.vectors.length = 0) :
    hybridSearch fts env db query opts
      = (((search fts db query ⟨some ((opts.maxResults.getD 10) * 3), some 0,
            some (opts.source.getD "all")⟩).take (opts.maxResults.getD 10)).filter
            (fun r => (opts.minScore.getD 0) ≤ r.score), "bm25") := by
  unfold hybridSearch
  rcases hcase with h | h | h <;> simp [h]

/-! ## Claim C4 -/

/-- C4: with no available embedding provider, no vectors table, or zero
stored vector rows, hybridSearch reports mode bm25 and returns the exact
result list (elements, order, and scores) of a plain search with the same
query, maxResults, minScore, and source, under the FTS engine contract
that match lists are ordered by rank with nonnegative scores. -/
theorem hybridSearch_C4_bm25Fallback (fts : String → Except Unit (List (Nat × ℚ)))
    (env : VectorEnv) (db : Db) (query : String) (opts : HybridOpts)
    (hsorted : ∀ q hits, fts q = .ok hits →
      List.Pairwise (fun a b : Nat × ℚ => b.2 ≤ a.2) hits)
    (hnonneg : ∀ q hits, fts q = .ok hits → ∀ h ∈ hits, 0 ≤ h.2)
    (hcase : env.embedAvailable = false ∨ env.hasVectorsTable = false ∨
      env.vectors.length = 0) :
    hybridSearch fts env db query opts
      = (search fts db query ⟨opts.maxResults, opts.minScore, opts.source⟩, "bm25") := by
  obtain ⟨K, hdesc, hnn, hshape⟩ :=
    search_shape fts db query (opts.source.getD "all") hsorted hnonneg
  rw [hybridSearch_fallback_eq fts env db query opts hcase]
  have hsearch_eq : search fts db query ⟨opts.maxResults, opts.minScore, opts.source⟩
      = search fts db query ⟨some (opts.maxResults.getD 10), some (opts.minScore.getD 0),
          some (opts.source.getD "all")⟩ := by
    rcases opts with ⟨a, b, c, w1, w2⟩
    cases a <;> cases b <;> cases c <;> rfl
  rw [hsearch_eq, hshape ((opts.maxResults.getD 10) * 3) 0,
    hshape (opts.maxResults.getD 10) (opts.minScore.getD 0)]
  rw [finish_take K hdesc hnn (opts.maxResults.getD 10) (opts.minScore.getD 0)]

/-- Witness for C4 at a concrete engine with no results, no provider and
no vectors. -/
theorem hybridSearch_C4_bm25Fallback_witness :
    hybridSearch (fun _ => .ok []) ⟨false, false, [], false, fun _ => 0⟩ ⟨[], [], 0⟩
        "note" ⟨none, none, none, none, none⟩
      = (search (fun _ => .ok []) ⟨[], [], 0⟩ "note" ⟨none, none, none⟩, "bm25") :=
  hybridSearch_C4_bm25Fallback (fun _ => .ok []) ⟨false, false, [], false, fun _ => 0⟩
    ⟨[], [], 0⟩ "note" ⟨none, none, none, none, none⟩
    (by
      intro q hits h
      injection h with h
      subst h
      exact List.Pairwise.nil)
    (by
      intro q hits h
      injection h with h
      subst h
      intro x hx
      cases hx)
    (Or.inl rfl)

/-! ## C5: the hybrid merge formula

Support: the span key by which a candidate result is matched to a stored
chunk, the chunk id it resolves to, maximum lemmas, and a
characterisation of the JavaScript Map folds of hybridSearch as plain
association lists. -/

/-- The coordinates by which hybridSearch maps a candidate result back to
its chunk row. -/
def spanKey (r : SearchResult) : String × Nat × Nat :=
  (r.path, r.startLine, r.endLine)

/-- The chunk id a candidate result resolves to: the id of the first
stored chunk with the same path and line span. -/
def chunkIdOfResult (db : Db) (r : SearchResult) : Option Nat :=
  (db.chunks.find? (fun c =>
      decide (c.path = r.path) && decide (c.startLine = r.startLine) &&
      decide (c.endLine = r.endLine))).map (fun c => c.id)

theorem foldl_max_init (l : List ℚ) : ∀ a : ℚ, a ≤ l.foldl max a := by
  induction l with
  | nil => intro a; exact le_refl a
  | cons x xs ih =>
    intro a
    exact le_trans (le_max_left a x) (ih (max a x))

theorem foldl_max_mem (l : List ℚ) : ∀ a y : ℚ, y ∈ l → y ≤ l.foldl max a := by
  induction l with
  | nil => intro a y hy; cases hy
  | cons x xs ih =>
    intro a y hy
    rcases List.mem_cons.mp hy with rfl | hy2
    · exact le_trans (le_max_right a y) (foldl_max_init xs (max a y))
    · exact ih (max a x) y hy2

theorem le_listMax (l : List ℚ) (y : ℚ) (hy : y ∈ l) : y ≤ listMax l := by
  cases l with
  | nil => cases hy
  | cons x xs =>
    unfold listMax
    rcases List.mem_cons.mp hy with rfl | hy2
    · exact foldl_max_init xs y
    · exact foldl_max_mem xs x y hy2

/-- Map.set appends when the key is absent. -/
theorem mapSet_append {α : Type} (m : List (Nat × α)) (k : Nat) (v : α)
    (h : ∀ e ∈ m, e.1 ≠ k) : mapSet m k v = m ++ [(k, v)] := by
  have hf : m.find? (fun e => decide (e.1 = k)) = none :=
    List.find?_eq_none.mpr (fun e he => by simpa using h e he)
  unfold mapSet
  rw [hf]
  rfl

/-- A fold of Map.set over pairwise fresh keys builds the evident
association list, in input order. -/
theorem foldl_mapSet_eq {γ α : Type} (key : γ → Option Nat) (val : γ → α) :
    ∀ (xs : List γ) (m0 : List (Nat × α)),
      (∀ x ∈ xs, ∀ e ∈ m0, key x ≠ some e.1) →
      (xs.filterMap key).Nodup →
      xs.foldl (fun m x =>
        match key x with
        | some k => mapSet m k (val x)
        | none => m) m0
      = m0 ++ xs.filterMap (fun x => (key x).map (fun k => (k, val x))) := by
  intro xs
  induction xs with
  | nil =>
    intro m0 _ _
    simp
  | cons x xs ih =>
    intro m0 hdisj hnd
    cases hk : key x with
    | none =>
      simp only [List.filterMap_cons, hk] at hnd
      rw [List.foldl_cons]
      simp only [hk, List.filterMap_cons, Option.map_none']
      exact ih m0 (fun y hy e he => hdisj y (List.mem_cons_of_mem x hy) e he) hnd
    | some k =>
      simp only [List.filterMap_cons, hk] at hnd
      rcases List.nodup_cons.mp hnd with ⟨hknot, hnd2⟩
      have hfresh : ∀ e ∈ m0, e.1 ≠ k := by
        intro e he hek
        exact hdisj x (List.mem_cons_self x xs) e he (by rw [hk, hek])
      rw [List.foldl_cons]
      simp only [hk, List.filterMap_cons, Option.map_some']
      rw [mapSet_append m0 k (val x) hfresh]
      have hdisj2 : ∀ y ∈ xs, ∀ e ∈ m0 ++ [(k, val x)], key y ≠ some e.1 := by
        intro y hy e he
        rcases List.mem_append.mp he with he2 | he2
        · exact hdisj y (List.mem_cons_of_mem x hy) e he2
        · have he3 : e = (k, val x) := List.mem_singleton.mp he2
          subst he3
          intro hky
          exact hknot (List.mem_filterMap.mpr ⟨y, hy, hky⟩)
      rw [ih (m0 ++ [(k, val x)]) hdisj2 hnd2]
      simp

/-- Map.get finds the unique value of a present key. -/
theorem mapGet_of_mem {α : Type} (l : List (Nat × α)) (k : Nat) (v : α)
    (hnd : (l.map (fun e => e.1)).Nodup) (hmem : (k, v) ∈ l) :
    mapGet l k = some v := by
  induction l with
  | nil => cases hmem
  | cons e l ih =>
    rw [List.map_cons, List.nodup_cons] at hnd
    unfold mapGet
    by_cases hek : e.1 = k
    · rw [List.find?_cons_of_pos]
      · rcases List.mem_cons.mp hmem with rfl | hmem2
        · rfl
        · exfalso
          apply hnd.1
          rw [hek]
          exact List.mem_map.mpr ⟨(k, v), hmem2, rfl⟩
      · simp [hek]
    · rw [List.find?_cons_of_neg]
      · have hmem2 : (k, v) ∈ l := by
          rcases List.mem_cons.mp hmem with rfl | hmem2
          · exact absurd rfl hek
          · exact hmem2
        exact ih hnd.2 hmem2
      · simp [hek]

/-- Map.get misses an absent key. -/
theorem mapGet_of_not_mem {α : Type} (l : List (Nat × α)) (k : Nat)
    (h : ∀ e ∈ l, e.1 ≠ k) : mapGet l k = none := by
  have hf : l.find? (fun e => decide (e.1 = k)) = none :=
    List.find?_eq_none.mpr (fun e he => by simpa using h e he)
  unfold mapGet
  rw [hf]
  rfl

theorem map_filterMap_sublist {α β : Type} (f : α → Option β) (g : β → α)
    (h : ∀ x y, f x = some y → g y = x) (l : List α) :
    ((l.filterMap f).map g).Sublist l := by
  induction l with
  | nil => simp
  | cons a l ih =>
    cases hf : f a with
    | none =>
      rw [List.filterMap_cons, hf]
      exact ih.cons a
    | some y =>
      rw [List.filterMap_cons, hf, List.map_cons, h a y hf]
      exact ih.cons₂ a

theorem filterMap_pair_keys {γ α : Type} (key : γ → Option Nat) (val : γ → α) (l : List γ) :
    ((l.filterMap (fun x => (key x).map (fun k => (k, val x)))).map (fun e => e.1))
      = l.filterMap key := by
  induction l with
  | nil => rfl
  | cons x xs ih =>
    cases hk : key x with
    | none => simp [List.filterMap_cons, hk, ih]
    | some k => simp [List.filterMap_cons, hk, ih]

theorem filterMap_map_fst_eq {β : Type} (l : List Nat) (f : Nat → Option (Nat × β))
    (h : ∀ x ∈ l, ∃ y, f x = some y ∧ y.1 = x) :
    ((l.filterMap f).map (fun e => e.1)) = l := by
  induction l with
  | nil => rfl
  | cons a l ih =>
    rcases h a (List.mem_cons_self a l) with ⟨y, hy, hy1⟩
    rw [List.filterMap_cons, hy, List.map_cons, hy1,
      ih (fun x hx => h x (List.mem_cons_of_mem a hx))]

/-- A candidate result whose span coincides with a stored chunk resolves
to a chunk id, namely the id of the first chunk with that span. -/
theorem chunkIdOfResult_resolves (db : Db) (r : SearchResult) (c : ChunkRow)
    (hc : c ∈ db.chunks) (hp : r.path = c.path) (hs : r.startLine = c.startLine)
    (he : r.endLine = c.endLine) :
    ∃ c2 ∈ db.chunks, db.chunks.find? (fun c3 =>
        decide (c3.path = r.path) && decide (c3.startLine = r.startLine) &&
        decide (c3.endLine = r.endLine)) = some c2 ∧
      chunkIdOfResult db r = some c2.id ∧
      c2.path = r.path ∧ c2.startLine = r.startLine ∧ c2.endLine = r.endLine := by
  have hsome : (db.chunks.find? (fun c3 =>
      decide (c3.path = r.path) && decide (c3.startLine = r.startLine) &&
      decide (c3.endLine = r.endLine))).isSome = true :=
    List.find?_isSome.mpr ⟨c, hc, by simp [hp, hs, he]⟩
  cases hfind : db.chunks.find? (fun c3 =>
      decide (c3.path = r.path) && decide (c3.startLine = r.startLine) &&
      decide (c3.endLine = r.endLine)) with
  | none =>
    rw [hfind] at hsome
    exact Bool.noConfusion hsome
  | some c2 =>
    have hpred := List.find?_some hfind
    have hmem := List.mem_of_find?_eq_some hfind
    simp only [Bool.and_eq_true, decide_eq_true_eq] at hpred
    refine ⟨c2, hmem, rfl, ?_, hpred.1.1, hpred.1.2, hpred.2⟩
    unfold chunkIdOfResult
    rw [hfind]
    rfl

/-- With unique chunk ids and unique spans, two candidate results that
resolve to the same chunk id have the same span. -/
theorem chunkIdOfResult_inj (db : Db) (hids : (db.chunks.map (fun c => c.id)).Nodup)
    (hspan : ∀ c1 ∈ db.chunks, ∀ c2 ∈ db.chunks, c1.path = c2.path →
      c1.startLine = c2.startLine → c1.endLine = c2.endLine → c1 = c2)
    (r1 r2 : SearchResult) (x : Nat)
    (h1 : chunkIdOfResult db r1 = some x) (h2 : chunkIdOfResult db r2 = some x) :
    spanKey r1 = spanKey r2 := by
  unfold chunkIdOfResult at h1 h2
  rcases Option.map_eq_some'.mp h1 with ⟨c1, hf1, hid1⟩
  rcases Option.map_eq_some'.mp h2 with ⟨c2, hf2, hid2⟩
  have hm1 := List.mem_of_find?_eq_some hf1
  have hm2 := List.mem_of_find?_eq_some hf2
  have hp1 := List.find?_some hf1
  have hp2 := List.find?_some hf2
  simp only [Bool.and_eq_true, decide_eq_true_eq] at hp1 hp2
  have hceq : c1 = c2 := List.inj_on_of_nodup_map hids hm1 hm2 (hid1.trans hid2.symm)
  unfold spanKey
  rw [← hp1.1.1, ← hp1.1.2, ← hp1.2, hceq, hp2.1.1, hp2.1.2, hp2.2]

/-- Score normalisation does not touch the span keys. -/
theorem normalizeScores_spanKeys (rs : List SearchResult) :
    (normalizeScores rs).map spanKey = rs.map spanKey := by
  cases rs with
  | nil => rfl
  | cons a l =>
    rw [normalizeScores_cons]
    by_cases hm : 0 < listMax ((a :: l).map (fun r => r.score))
    · rw [if_pos hm, List.map_map]
      rfl
    · rw [if_neg hm]

/-- Normalising and filtering only selects and rescores rows, so the span
keys of the outcome form a sublist of the span keys of the input. -/
theorem finishSearch_spanKey_sublist (ms : ℚ) (rs : List SearchResult) :
    ((finishSearch ms rs).map spanKey).Sublist (rs.map spanKey) := by
  have h1 : ((finishSearch ms rs).map spanKey).Sublist ((normalizeScores rs).map spanKey) :=
    List.Sublist.map spanKey (List.filter_sublist _)
  rw [normalizeScores_spanKeys] at h1
  exact h1

/-- Rows of the ranked query: every row carries the span of a stored
chunk, and with unique spans and duplicate-free hit ids the spans are
pairwise distinct. -/
theorem runFts_spanKey (fts : String → Except Unit (List (Nat × ℚ))) (db : Db)
    (q src : String) (limit : Nat) (rs : List SearchResult)
    (hspan : ∀ c1 ∈ db.chunks, ∀ c2 ∈ db.chunks, c1.path = c2.path →
      c1.startLine = c2.startLine → c1.endLine = c2.endLine → c1 = c2)
    (hhitnd : ∀ hits, fts q = .ok hits → (hits.map (fun h => h.1)).Nodup)
    (hok : runFts fts db q src limit = .ok rs) :
    (rs.map spanKey).Nodup ∧
    ∀ r ∈ rs, ∃ c ∈ db.chunks, spanKey r = (c.path, c.startLine, c.endLine) := by
  unfold runFts at hok
  cases hfts : fts q with
  | error e =>
    rw [hfts] at hok
    cases hok
  | ok hits =>
    rw [hfts] at hok
    injection hok with hok
    subst hok
    constructor
    · rw [List.map_map]
      refine List.pairwise_map.mpr ?_
      refine List.Pairwise.sublist (List.take_sublist _ _) ?_
      refine List.Pairwise.filter _ ?_
      refine pairwise_filterMap_of _ (fun a b : Nat × ℚ => a.1 ≠ b.1) _ ?_ hits
        (List.pairwise_map.mp (hhitnd hits hfts))
      intro a b x y hab hfa hfb
      rcases Option.map_eq_some'.mp hfa with ⟨ca, hca, rfl⟩
      rcases Option.map_eq_some'.mp hfb with ⟨cb, hcb, rfl⟩
      have hmca := List.mem_of_find?_eq_some hca
      have hmcb := List.mem_of_find?_eq_some hcb
      have hida : ca.id = a.1 := by simpa using List.find?_some hca
      have hidb : cb.id = b.1 := by simpa using List.find?_some hcb
      intro hspaneq
      have h1 : ca.path = cb.path := congrArg Prod.fst hspaneq
      have h23 := congrArg Prod.snd hspaneq
      have h2 : ca.startLine = cb.startLine := congrArg Prod.fst h23
      have h3 : ca.endLine = cb.endLine := congrArg Prod.snd h23
      have hcc : ca = cb := hspan ca hmca cb hmcb h1 h2 h3
      exact hab (by rw [← hida, ← hidb, hcc])
    · intro r hr
      rcases List.mem_map.mp hr with ⟨p, hp, rfl⟩
      have hp2 := List.mem_of_mem_take hp
      have hp3 := List.mem_of_mem_filter hp2
      rcases List.mem_filterMap.mp hp3 with ⟨h, hh, hsome⟩
      rcases Option.map_eq_some'.mp hsome with ⟨c, hc, rfl⟩
      exact ⟨c, List.mem_of_find?_eq_some hc, rfl⟩

/-- Every search output has pairwise distinct span keys, each being the
span of a stored chunk, when spans are unique and the engine never
returns a chunk id twice. -/
theorem search_spanKey_structure (fts : String → Except Unit (List (Nat × ℚ))) (db : Db)
    (query : String) (opts : SearchOpts)
    (hspan : ∀ c1 ∈ db.chunks, ∀ c2 ∈ db.chunks, c1.path = c2.path →
      c1.startLine = c2.startLine → c1.endLine = c2.endLine → c1 = c2)
    (hhitnd : ∀ q hits, fts q = .ok hits → (hits.map (fun h => h.1)).Nodup) :
    ((search fts db query opts).map spanKey).Nodup ∧
    ∀ r ∈ search fts db query opts, ∃ c ∈ db.chunks,
      spanKey r = (c.path, c.startLine, c.endLine) := by
  have hfin : ∀ (ms : ℚ) (rs : List SearchResult),
      (rs.map spanKey).Nodup →
      (∀ r ∈ rs, ∃ c ∈ db.chunks, spanKey r = (c.path, c.startLine, c.endLine)) →
      ((finishSearch ms rs).map spanKey).Nodup ∧
      ∀ r ∈ finishSearch ms rs, ∃ c ∈ db.chunks,
        spanKey r = (c.path, c.startLine, c.endLine) := by
    intro ms rs hnd hmem
    have hsub := finishSearch_spanKey_sublist ms rs
    refine ⟨hsub.nodup hnd, ?_⟩
    intro r hr
    have hsk : spanKey r ∈ rs.map spanKey :=
      hsub.subset (List.mem_map.mpr ⟨r, hr, rfl⟩)
    rcases List.mem_map.mp hsk with ⟨r0, hr0, heq⟩
    rcases hmem r0 hr0 with ⟨c, hc, hsk0⟩
    exact ⟨c, hc, heq.symm.trans hsk0⟩
  unfold search
  by_cases hq : formatFtsQuery query = ""
  · rw [if_pos hq]
    exact ⟨List.nodup_nil, by intro r hr; cases hr⟩
  · rw [if_neg hq]
    cases h1 : runFts fts db (formatFtsQuery query) (opts.source.getD "all")
        (opts.maxResults.getD 10) with
    | ok rs =>
      have hks := runFts_spanKey fts db (formatFtsQuery query) (opts.source.getD "all")
        (opts.maxResults.getD 10) rs hspan (fun hits hh => hhitnd _ hits hh) h1
      exact hfin _ rs hks.1 hks.2
    | error e =>
      by_cases hs : String.intercalate " OR "
          ((((((jsSplitWs query).filter (fun w => 1 < w.length)).map stripSpecial).filter
              (fun w => 0 < w.length)).map quoteWord)) = ""
      · rw [if_pos hs]
        exact ⟨List.nodup_nil, by intro r hr; cases hr⟩
      · rw [if_neg hs]
        cases h2 : runFts fts db (String.intercalate " OR "
            ((((((jsSplitWs query).filter (fun w => 1 < w.length)).map stripSpecial).filter
                (fun w => 0 < w.length)).map quoteWord))) (opts.source.getD "all")
            (opts.maxResults.getD 10) with
        | ok rs2 =>
          have hks := runFts_spanKey fts db _ (opts.source.getD "all")
            (opts.maxResults.getD 10) rs2 hspan (fun hits hh => hhitnd _ hits hh) h2
          exact hfin _ rs2 hks.1 hks.2
        | error e2 =>
          exact ⟨List.nodup_nil, by intro r hr; cases hr⟩

/-- The chunk ids the candidate results resolve to are pairwise distinct. -/
theorem search_cids_nodup (fts : String → Except Unit (List (Nat × ℚ))) (db : Db)
    (query : String) (opts : SearchOpts)
    (hids : (db.chunks.map (fun c => c.id)).Nodup)
    (hspan : ∀ c1 ∈ db.chunks, ∀ c2 ∈ db.chunks, c1.path = c2.path →
      c1.startLine = c2.startLine → c1.endLine = c2.endLine → c1 = c2)
    (hhitnd : ∀ q hits, fts q = .ok hits → (hits.map (fun h => h.1)).Nodup) :
    ((search fts db query opts).filterMap (chunkIdOfResult db)).Nodup := by
  have hsp := search_spanKey_structure fts db query opts hspan hhitnd
  have hpw : List.Pairwise (fun r1 r2 => spanKey r1 ≠ spanKey r2)
      (search fts db query opts) := List.pairwise_map.mp hsp.1
  exact pairwise_filterMap_of (chunkIdOfResult db)
    (fun r1 r2 => spanKey r1 ≠ spanKey r2) (fun x y => x ≠ y)
    (fun a b x y hab hfa hfb hxy =>
      hab (chunkIdOfResult_inj db hids hspan a b x hfa (by rw [← hxy] at hfb; exact hfb)))
    (search fts db query opts) hpw

/-- With pairwise distinct resolved chunk ids, the bm25 map fold is the
association list pairing each resolved id with its candidate row and
score, in candidate order. -/
theorem bm25MapOf_eq (db : Db) (rs : List SearchResult)
    (hnd : (rs.filterMap (chunkIdOfResult db)).Nodup) :
    bm25MapOf db rs
      = rs.filterMap (fun r => (chunkIdOfResult db r).map (fun k => (k, (r, r.score)))) := by
  unfold bm25MapOf
  have hfn : (fun (m : List (Nat × (SearchResult × ℚ))) (r : SearchResult) =>
      match db.chunks.find? (fun c =>
          decide (c.path = r.path) && decide (c.startLine = r.startLine) &&
          decide (c.endLine = r.endLine)) with
      | some c => mapSet m c.id (r, r.score)
      | none => m)
      = (fun m r =>
        match chunkIdOfResult db r with
        | some k => mapSet m k (r, r.score)
        | none => m) := by
    funext m r
    unfold chunkIdOfResult
    cases h : db.chunks.find? (fun c =>
        decide (c.path = r.path) && decide (c.startLine = r.startLine) &&
        decide (c.endLine = r.endLine)) with
    | none => rfl
    | some c => rfl
  rw [hfn]
  rw [foldl_mapSet_eq (chunkIdOfResult db) (fun r => (r, r.score)) rs []
    (by intro x hx e he; cases he) hnd]
  rw [List.nil_append]

theorem bm25MapOf_keys (db : Db) (rs : List SearchResult)
    (hnd : (rs.filterMap (chunkIdOfResult db)).Nodup) :
    (bm25MapOf db rs).map (fun e => e.1) = rs.filterMap (chunkIdOfResult db) := by
  rw [bm25MapOf_eq db rs hnd]
  exact filterMap_pair_keys (chunkIdOfResult db) (fun r => (r, r.score)) rs

theorem bm25MapOf_get_some (db : Db) (rs : List SearchResult)
    (hnd : (rs.filterMap (chunkIdOfResult db)).Nodup) (cid : Nat) (r : SearchResult)
    (hr : r ∈ rs) (hcid : chunkIdOfResult db r = some cid) :
    mapGet (bm25MapOf db rs) cid = some (r, r.score) := by
  apply mapGet_of_mem
  · rw [bm25MapOf_keys db rs hnd]
    exact hnd
  · rw [bm25MapOf_eq db rs hnd]
    exact List.mem_filterMap.mpr ⟨r, hr, by rw [hcid]; rfl⟩

theorem bm25MapOf_get_none (db : Db) (rs : List SearchResult)
    (hnd : (rs.filterMap (chunkIdOfResult db)).Nodup) (cid : Nat)
    (h : ∀ r ∈ rs, chunkIdOfResult db r ≠ some cid) :
    mapGet (bm25MapOf db rs) cid = none := by
  apply mapGet_of_not_mem
  intro e he hek
  rw [bm25MapOf_eq db rs hnd] at he
  rcases List.mem_filterMap.mp he with ⟨r, hr, hsome⟩
  rcases Option.map_eq_some'.mp hsome with ⟨k, hk, rfl⟩
  exact h r hr (hk.trans (congrArg some hek))

/-- The joined vector rows keep the order and keys of the stored vector
id list they are drawn from. -/
theorem vectorJoin_keys_sublist (env : VectorEnv) (db : Db) (src : String) :
    ((vectorJoin env db src).map (fun vc => vc.1)).Sublist env.vectors := by
  unfold vectorJoin
  apply map_filterMap_sublist
  intro vid p hp
  rcases Option.bind_eq_some.mp hp with ⟨c, hc, hif⟩
  by_cases hsf : sourceFilter src c = true
  · rw [if_pos hsf] at hif
    injection hif with hif
    rw [← hif]
  · rw [if_neg hsf] at hif
    cases hif

theorem vectorJoin_keys_nodup (env : VectorEnv) (db : Db) (src : String)
    (hvnd : env.vectors.Nodup) :
    ((vectorJoin env db src).map (fun vc => vc.1)).Nodup :=
  (vectorJoin_keys_sublist env db src).nodup hvnd

theorem filterMap_some_eq_map {α β : Type} (g : α → β) (l : List α) :
    l.filterMap (fun x => some (g x)) = l.map g := by
  induction l with
  | nil => rfl
  | cons a l ih => simp [List.filterMap_cons, ih]

theorem filterMap_some_fst {α : Type} (l : List (Nat × α)) :
    l.filterMap (fun vc => some vc.1) = l.map (fun vc => vc.1) :=
  filterMap_some_eq_map (fun vc => vc.1) l

/-- The un-normalised cosine fold over duplicate-free keys is the evident
association list. -/
theorem vectorScoresOf_m0 (env : VectorEnv) (rows : List (Nat × ChunkRow))
    (hnd : (rows.map (fun vc => vc.1)).Nodup) :
    rows.foldl (fun m vc => mapSet m vc.1 (max 0 (env.cosine vc.1), vc.2)) []
      = rows.map (fun vc => (vc.1, (max 0 (env.cosine vc.1), vc.2))) := by
  have hnd2 : (rows.filterMap (fun vc => some vc.1)).Nodup := by
    rw [filterMap_some_fst]
    exact hnd
  have h2 := foldl_mapSet_eq (fun vc : Nat × ChunkRow => some vc.1)
    (fun vc => (max 0 (env.cosine vc.1), vc.2)) rows []
    (by intro x hx e he; cases he) hnd2
  rw [List.nil_append] at h2
  have hfn : (fun (m : List (Nat × (ℚ × ChunkRow))) (vc : Nat × ChunkRow) =>
      mapSet m vc.1 (max 0 (env.cosine vc.1), vc.2))
      = (fun m vc =>
        match (some vc.1 : Option Nat) with
        | some k => mapSet m k (max 0 (env.cosine vc.1), vc.2)
        | none => m) := rfl
  rw [hfn, h2]
  exact filterMap_some_eq_map (fun vc => (vc.1, (max 0 (env.cosine vc.1), vc.2))) rows

theorem vectorScoresOf_eq (env : VectorEnv) (rows : List (Nat × ChunkRow))
    (hnd : (rows.map (fun vc => vc.1)).Nodup) :
    vectorScoresOf env rows
      = if 0 < maxCosineOf env rows then
          rows.map (fun vc =>
            (vc.1, (max 0 (env.cosine vc.1) / maxCosineOf env rows, vc.2)))
        else rows.map (fun vc => (vc.1, (max 0 (env.cosine vc.1), vc.2))) := by
  unfold vectorScoresOf
  rw [vectorScoresOf_m0 env rows hnd]
  by_cases hm : 0 < maxCosineOf env rows
  · rw [if_pos hm, if_pos hm, List.map_map]
    rfl
  · rw [if_neg hm, if_neg hm]

theorem vectorScoresOf_keys (env : VectorEnv) (rows : List (Nat × ChunkRow))
    (hnd : (rows.map (fun vc => vc.1)).Nodup) :
    (vectorScoresOf env rows).map (fun e => e.1) = rows.map (fun vc => vc.1) := by
  rw [vectorScoresOf_eq env rows hnd]
  by_cases hm : 0 < maxCosineOf env rows
  · rw [if_pos hm, List.map_map]
    rfl
  · rw [if_neg hm, List.map_map]
    rfl

theorem vectorScoresOf_get_some (env : VectorEnv) (rows : List (Nat × ChunkRow))
    (hnd : (rows.map (fun vc => vc.1)).Nodup) (vc : Nat × ChunkRow) (hvc : vc ∈ rows) :
    mapGet (vectorScoresOf env rows) vc.1
      = some ((if 0 < maxCosineOf env rows then
          max 0 (env.cosine vc.1) / maxCosineOf env rows
        else max 0 (env.cosine vc.1)), vc.2) := by
  rw [vectorScoresOf_eq env rows hnd]
  by_cases hm : 0 < maxCosineOf env rows
  · rw [if_pos hm, if_pos hm]
    apply mapGet_of_mem
    · rw [List.map_map]
      exact hnd
    · exact List.mem_map.mpr ⟨vc, hvc, rfl⟩
  · rw [if_neg hm, if_neg hm]
    apply mapGet_of_mem
    · rw [List.map_map]
      exact hnd
    · exact List.mem_map.mpr ⟨vc, hvc, rfl⟩

theorem vectorScoresOf_get_none (env : VectorEnv) (rows : List (Nat × ChunkRow))
    (hnd : (rows.map (fun vc => vc.1)).Nodup) (cid : Nat)
    (h : ∀ vc ∈ rows, vc.1 ≠ cid) :
    mapGet (vectorScoresOf env rows) cid = none := by
  apply mapGet_of_not_mem
  intro e he hek
  have hkey : e.1 ∈ (vectorScoresOf env rows).map (fun e => e.1) :=
    List.mem_map.mpr ⟨e, he, rfl⟩
  rw [vectorScoresOf_keys env rows hnd] at hkey
  rcases List.mem_map.mp hkey with ⟨vc, hvc, hvc1⟩
  exact h vc hvc (hvc1.trans hek)

theorem find?_key_some {α : Type} (l : List (Nat × α)) (cid : Nat) (vc : Nat × α)
    (hfind : l.find? (fun e => decide (e.1 = cid)) = some vc) : vc ∈ l ∧ vc.1 = cid :=
  ⟨List.mem_of_find?_eq_some hfind, by simpa using List.find?_some hfind⟩

theorem find?_key_none {α : Type} (l : List (Nat × α)) (cid : Nat)
    (hfind : l.find? (fun e => decide (e.1 = cid)) = none) : ∀ vc ∈ l, vc.1 ≠ cid := by
  intro vc hvc
  have h2 := List.find?_eq_none.mp hfind vc hvc
  simpa using h2

/-- When the maximum clamped cosine is not positive every clamped cosine
of a joined row is zero. -/
theorem clamp_zero_of_maxCosine_nonpos (env : VectorEnv) (rows : List (Nat × ChunkRow))
    (hm : ¬ 0 < maxCosineOf env rows) (vc : Nat × ChunkRow) (hvc : vc ∈ rows) :
    max 0 (env.cosine vc.1) = 0 := by
  unfold maxCosineOf at hm
  have h1 : max 0 (env.cosine vc.1) ≤ listMax (rows.map (fun p => max 0 (env.cosine p.1))) :=
    le_listMax _ _ (List.mem_map.mpr ⟨vc, hvc, rfl⟩)
  have h2 := le_of_not_lt hm
  exact le_antisymm (h1.trans h2) (le_max_left 0 _)

theorem mapGet_isSome_of_key_mem {α : Type} (l : List (Nat × α)) (cid : Nat)
    (h : cid ∈ l.map (fun e => e.1)) : (mapGet l cid).isSome = true := by
  rcases List.mem_map.mp h with ⟨e, he, he1⟩
  have hf : (l.find? (fun e => decide (e.1 = cid))).isSome = true :=
    List.find?_isSome.mpr ⟨e, he, by simp [he1]⟩
  cases hfind : l.find? (fun e => decide (e.1 = cid)) with
  | none =>
    rw [hfind] at hf
    exact Bool.noConfusion hf
  | some p =>
    unfold mapGet
    rw [hfind]
    rfl

/-- The merge loop: its keys are exactly the deduplicated union of the
keys of both maps, and every entry scores the weighted sum of its looked
up BM25 score and cosine score, missing sides counting as zero; the
result row carries the merged score. -/
theorem mergedOf_spec (bm : List (Nat × (SearchResult × ℚ)))
    (vs : List (Nat × (ℚ × ChunkRow))) (wB wV : ℚ) :
    ((mergedOf bm vs wB wV).map (fun e => e.1)
        = dedupKeepFirst (bm.map (fun e => e.1) ++ vs.map (fun e => e.1))) ∧
    ∀ e ∈ mergedOf bm vs wB wV,
      e.2.1 = wB * (match mapGet bm e.1 with | some p => p.2 | none => 0)
          + wV * (match mapGet vs e.1 with | some p => p.1 | none => 0) ∧
      e.2.2.score = e.2.1 := by
  constructor
  · unfold mergedOf
    apply filterMap_map_fst_eq
    intro cid hcid
    cases hb : mapGet bm cid with
    | some p =>
      refine ⟨(cid, wB * p.2 + wV * (match mapGet vs cid with | some q => q.1 | none => 0),
        { p.1 with score :=
          wB * p.2 + wV * (match mapGet vs cid with | some q => q.1 | none => 0) }), ?_, rfl⟩
      simp only [hb]
    | none =>
      cases hv : mapGet vs cid with
      | some q =>
        refine ⟨(cid, wB * 0 + wV * q.1, toSearchResult q.2 (wB * 0 + wV * q.1)), ?_, rfl⟩
        simp only [hb, hv]
      | none =>
        exfalso
        rcases List.mem_append.mp ((mem_dedupKeepFirst _ _).mp hcid) with hmem | hmem
        · have hsome := mapGet_isSome_of_key_mem bm cid hmem
          rw [hb] at hsome
          exact Bool.noConfusion hsome
        · have hsome := mapGet_isSome_of_key_mem vs cid hmem
          rw [hv] at hsome
          exact Bool.noConfusion hsome
  · intro e he
    rcases List.mem_filterMap.mp he with ⟨cid, hcid, hF⟩
    cases hb : mapGet bm cid with
    | some p =>
      cases hv : mapGet vs cid with
      | some q =>
        simp only [hb, hv] at hF
        injection hF with hF
        subst hF
        constructor
        · simp only [hb, hv]
        · rfl
      | none =>
        simp only [hb, hv] at hF
        injection hF with hF
        subst hF
        constructor
        · simp only [hb, hv]
        · rfl
    | none =>
      cases hv : mapGet vs cid with
      | some q =>
        simp only [hb, hv] at hF
        injection hF with hF
        subst hF
        constructor
        · simp only [hb, hv]
        · rfl
      | none =>
        simp only [hb, hv] at hF
        exact absurd hF (by simp)

/-- The ranking tail, unfolded against the head of the sorted list. -/
theorem rankPipeline_eq (sorted : List (Nat × ℚ × SearchResult)) (m : Nat) (ms : ℚ) :
    rankPipeline sorted m ms
      = (((if 0 < ((sorted.head?.map (fun x => x.2.1)).getD 0) then
          sorted.map (fun e => { e.2.2 with score :=
            e.2.2.score / ((sorted.head?.map (fun x => x.2.1)).getD 0) })
        else sorted.map (fun e => e.2.2)).take m).filter (fun r => ms ≤ r.score)) := by
  cases sorted with
  | nil => rfl
  | cons x xs =>
    unfold rankPipeline
    simp only [List.head?_cons, Option.map_some', Option.getD_some, List.map_map]
    rfl

/-- With the provider, the vectors table, stored vectors and a query
embedding all present, hybridSearch takes the merge path. -/
theorem hybridSearch_hybrid_eq (fts : String → Except Unit (List (Nat × ℚ)))
    (env : VectorEnv) (db : Db) (query : String) (opts : HybridOpts)
    (h1 : env.embedAvailable = true) (h2 : env.hasVectorsTable = true)
    (h3 : env.vectors ≠ []) (h4 : env.queryEmbedOk = true) :
    hybridSearch fts env db query opts
      = (rankMerged
          (mergedOf
            (bm25MapOf db (search fts db query
              ⟨some ((opts.maxResults.getD 10) * 3), some 0, some (opts.source.getD "all")⟩))
            (vectorScoresOf env (vectorJoin env db (opts.source.getD "all")))
            (opts.bm25Weight.getD (1/2)) (opts.vectorWeight.getD (1/2)))
          (opts.maxResults.getD 10) (opts.minScore.getD 0), "hybrid") := by
  have hlen : ¬ env.vectors.length = 0 := fun h => h3 (List.length_eq_zero.mp h)
  unfold hybridSearch
  simp [h1, h2, hlen, h4]

/-- C5: in hybrid mode (provider, vectors table, stored vectors and query
embedding all present) the merged candidate list ranges over the
deduplicated union of the chunk ids of the threefold lexical candidate
set and the source-filtered stored-vector rows, every lexical candidate
resolving to a chunk id; each merged entry scores
bm25Weight times its normalised BM25 score (zero when the chunk is absent
from the lexical side) plus vectorWeight times its cosine clamped at zero
and divided by the maximum clamped cosine (zero when the chunk has no
stored vector, and also when the maximum clamped cosine is not positive),
the weights defaulting to one half; the result row carries the merged
score; and the output is the merged list sorted descending by merged
score, re-normalised by the new maximum (the head of the sorted list),
truncated to maxResults and filtered by minScore.  Hypotheses: chunk ids
are unique (primary key), spans determine chunks (one chunk per span),
stored vector ids are unique (primary key), and the engine never returns
a chunk id twice in one hit list. -/
theorem hybridSearch_C5_mergeFormula (fts : String → Except Unit (List (Nat × ℚ)))
    (env : VectorEnv) (db : Db) (query : String) (opts : HybridOpts)
    (hembed : env.embedAvailable = true) (htable : env.hasVectorsTable = true)
    (hvec : env.vectors ≠ []) (hqok : env.queryEmbedOk = true)
    (hids : (db.chunks.map (fun c => c.id)).Nodup)
    (hspan : ∀ c1 ∈ db.chunks, ∀ c2 ∈ db.chunks, c1.path = c2.path →
      c1.startLine = c2.startLine → c1.endLine = c2.endLine → c1 = c2)
    (hvnd : env.vectors.Nodup)
    (hhitnd : ∀ q hits, fts q = .ok hits → (hits.map (fun h => h.1)).Nodup) :
    (hybridSearch fts env db query opts).2 = "hybrid" ∧
    ∃ merged : List (Nat × ℚ × SearchResult),
      (merged.map (fun e => e.1)
          = dedupKeepFirst
              ((search fts db query ⟨some ((opts.maxResults.getD 10) * 3), some 0,
                  some (opts.source.getD "all")⟩).filterMap (chunkIdOfResult db)
                ++ (vectorJoin env db (opts.source.getD "all")).map (fun vc => vc.1))) ∧
      (∀ r ∈ search fts db query ⟨some ((opts.maxResults.getD 10) * 3), some 0,
          some (opts.source.getD "all")⟩, (chunkIdOfResult db r).isSome = true) ∧
      (∀ e ∈ merged,
        e.2.1 = (opts.bm25Weight.getD (1/2)) *
            (match (search fts db query ⟨some ((opts.maxResults.getD 10) * 3), some 0,
                some (opts.source.getD "all")⟩).find?
                (fun r => decide (chunkIdOfResult db r = some e.1)) with
              | some r => r.score
              | none => 0)
          + (opts.vectorWeight.getD (1/2)) *
            (if ((vectorJoin env db (opts.source.getD "all")).find?
                (fun vc => decide (vc.1 = e.1))).isSome = true then
              (if 0 < maxCosineOf env (vectorJoin env db (opts.source.getD "all")) then
                max 0 (env.cosine e.1)
                  / maxCosineOf env (vectorJoin env db (opts.source.getD "all"))
              else 0)
            else 0) ∧
        e.2.2.score = e.2.1) ∧
      ∃ sorted : List (Nat × ℚ × SearchResult),
        sorted.Perm merged ∧
        List.Pairwise (fun a b => b.2.1 ≤ a.2.1) sorted ∧
        (hybridSearch fts env db query opts).1
          = (((if 0 < ((sorted.head?.map (fun x => x.2.1)).getD 0) then
              sorted.map (fun e => { e.2.2 with score :=
                e.2.2.score / ((sorted.head?.map (fun x => x.2.1)).getD 0) })
            else sorted.map (fun e => e.2.2)).take (opts.maxResults.getD 10)).filter
              (fun r => (opts.minScore.getD 0) ≤ r.score)) := by
  have hhyb := hybridSearch_hybrid_eq fts env db query opts hembed htable hvec hqok
  have hcnd : ((search fts db query ⟨some ((opts.maxResults.getD 10) * 3), some 0,
      some (opts.source.getD "all")⟩).filterMap (chunkIdOfResult db)).Nodup :=
    search_cids_nodup fts db query _ hids hspan hhitnd
  have hrownd : ((vectorJoin env db (opts.source.getD "all")).map (fun vc => vc.1)).Nodup :=
    vectorJoin_keys_nodup env db (opts.source.getD "all") hvnd
  have hprov := (search_spanKey_structure fts db query
    ⟨some ((opts.maxResults.getD 10) * 3), some 0, some (opts.source.getD "all")⟩
    hspan hhitnd).2
  refine ⟨by rw [hhyb], ?_⟩
  refine ⟨mergedOf
    (bm25MapOf db (search fts db query ⟨some ((opts.maxResults.getD 10) * 3), some 0,
      some (opts.source.getD "all")⟩))
    (vectorScoresOf env (vectorJoin env db (opts.source.getD "all")))
    (opts.bm25Weight.getD (1/2)) (opts.vectorWeight.getD (1/2)), ?_, ?_, ?_, ?_⟩
  · rw [(mergedOf_spec _ _ _ _).1]
    rw [bm25MapOf_keys db _ hcnd, vectorScoresOf_keys env _ hrownd]
  · intro r hr
    rcases hprov r hr with ⟨c, hc, hsk⟩
    have hp : r.path = c.path := congrArg Prod.fst hsk
    have h23 := congrArg Prod.snd hsk
    have hs2 : r.startLine = c.startLine := congrArg Prod.fst h23
    have he2 : r.endLine = c.endLine := congrArg Prod.snd h23
    rcases chunkIdOfResult_resolves db r c hc hp hs2 he2 with ⟨c2, _, _, hcid, _⟩
    rw [hcid]
    rfl
  · intro e he
    have hspec := (mergedOf_spec
      (bm25MapOf db (search fts db query ⟨some ((opts.maxResults.getD 10) * 3), some 0,
        some (opts.source.getD "all")⟩))
      (vectorScoresOf env (vectorJoin env db (opts.source.getD "all")))
      (opts.bm25Weight.getD (1/2)) (opts.vectorWeight.getD (1/2))).2 e he
    refine ⟨?_, hspec.2⟩
    rw [hspec.1]
    have hXb : (match mapGet (bm25MapOf db (search fts db query
          ⟨some ((opts.maxResults.getD 10) * 3), some 0,
            some (opts.source.getD "all")⟩)) e.1 with
        | some p => p.2
        | none => (0 : ℚ))
        = (match (search fts db query ⟨some ((opts.maxResults.getD 10) * 3), some 0,
            some (opts.source.getD "all")⟩).find?
            (fun r => decide (chunkIdOfResult db r = some e.1)) with
          | some r => r.score
          | none => (0 : ℚ)) := by
      cases hfind : (search fts db query ⟨some ((opts.maxResults.getD 10) * 3), some 0,
          some (opts.source.getD "all")⟩).find?
          (fun r => decide (chunkIdOfResult db r = some e.1)) with
      | some r =>
        have hmem := List.mem_of_find?_eq_some hfind
        have hcid : chunkIdOfResult db r = some e.1 := by
          simpa using List.find?_some hfind
        rw [bm25MapOf_get_some db _ hcnd e.1 r hmem hcid]
      | none =>
        have hnone : ∀ r ∈ search fts db query ⟨some ((opts.maxResults.getD 10) * 3), some 0,
            some (opts.source.getD "all")⟩, chunkIdOfResult db r ≠ some e.1 := by
          intro r hr
          have h4 := List.find?_eq_none.mp hfind r hr
          simpa using h4
        rw [bm25MapOf_get_none db _ hcnd e.1 hnone]
    have hXv : (match mapGet (vectorScoresOf env
          (vectorJoin env db (opts.source.getD "all"))) e.1 with
        | some p => p.1
        | none => (0 : ℚ))
        = (if ((vectorJoin env db (opts.source.getD "all")).find?
            (fun vc => decide (vc.1 = e.1))).isSome = true then
          (if 0 < maxCosineOf env (vectorJoin env db (opts.source.getD "all")) then
            max 0 (env.cosine e.1)
              / maxCosineOf env (vectorJoin env db (opts.source.getD "all"))
          else 0)
        else (0 : ℚ)) := by
      cases hfind : (vectorJoin env db (opts.source.getD "all")).find?
          (fun vc => decide (vc.1 = e.1)) with
      | some vc =>
        rcases find?_key_some _ e.1 vc hfind with ⟨hvmem, hv1⟩
        have hget := vectorScoresOf_get_some env _ hrownd vc hvmem
        rw [hv1] at hget
        rw [hget]
        simp only [hfind, Option.isSome_some, if_true]
        by_cases hmc : 0 < maxCosineOf env (vectorJoin env db (opts.source.getD "all"))
        · rw [if_pos hmc, if_pos hmc]
        · rw [if_neg hmc, if_neg hmc]
          have hz := clamp_zero_of_maxCosine_nonpos env _ hmc vc hvmem
          rw [hv1] at hz
          exact hz
      | none =>
        have hnone := find?_key_none _ e.1 hfind
        rw [vectorScoresOf_get_none env _ hrownd e.1 hnone]
        simp [hfind]
    rw [hXb, hXv]
  · refine ⟨sortByStable (fun a b => decide (b.2.1 ≤ a.2.1))
      (mergedOf
        (bm25MapOf db (search fts db query ⟨some ((opts.maxResults.getD 10) * 3), some 0,
          some (opts.source.getD "all")⟩))
        (vectorScoresOf env (vectorJoin env db (opts.source.getD "all")))
        (opts.bm25Weight.getD (1/2)) (opts.vectorWeight.getD (1/2))),
      sortByStable_perm _ _, ?_, ?_⟩
    · have htot : ∀ a b : Nat × ℚ × SearchResult,
          decide (b.2.1 ≤ a.2.1) = true ∨ decide (a.2.1 ≤ b.2.1) = true := by
        intro a b
        rcases le_total b.2.1 a.2.1 with h | h
        · exact Or.inl (decide_eq_true h)
        · exact Or.inr (decide_eq_true h)
      have htrans : ∀ a b c : Nat × ℚ × SearchResult, decide (b.2.1 ≤ a.2.1) = true →
          decide (c.2.1 ≤ b.2.1) = true → decide (c.2.1 ≤ a.2.1) = true := by
        intro a b c hab hbc
        exact decide_eq_true (le_trans (of_decide_eq_true hbc) (of_decide_eq_true hab))
      exact (sortByStable_pairwise _ htot htrans _).imp (fun h => of_decide_eq_true h)
    · rw [hhyb]
      exact rankPipeline_eq _ _ _

/-- Witness for C5 at a concrete store with one chunk and one stored
vector. -/
theorem hybridSearch_C5_mergeFormula_witness :
    (hybridSearch (fun _ => .ok []) ⟨true, true, [0], true, fun _ => 1⟩
      ⟨[], [⟨0, "a.md", "memory", 1, 2, "hello", "h", 0⟩], 1⟩
      "note" ⟨none, none, none, none, none⟩).2 = "hybrid" :=
  (hybridSearch_C5_mergeFormula (fun _ => .ok []) ⟨true, true, [0], true, fun _ => 1⟩
    ⟨[], [⟨0, "a.md", "memory", 1, 2, "hello", "h", 0⟩], 1⟩
    "note" ⟨none, none, none, none, none⟩
    rfl rfl (by decide) rfl (by decide) (by decide) (by decide)
    (by
      intro q hits h
      injection h with h
      subst h
      exact List.nodup_nil)).1

end ClawKit
